import Mathlib

/-!
Verification of the Monte-Carlo simulation core of `mcBase.h` and the
analytics of `analytics.h` (repository CompFinance).

Conventions of the shallow embedding:
* C++ `double` scalars are embedded as `ℚ` (exact arithmetic; the claims
  under study are structural, not about floating-point rounding).
* The abstract classes `Product`, `Model`, `RNG` become structures of
  functions; mutable objects (`Model` state, `RNG` state) become explicit
  state values threaded through the code, and `clone()` becomes a value
  copy.  The original (const-reference) arguments of each simulator are
  threaded through the simulation state unchanged, mirroring the fact that
  the C++ code only ever calls const members or `clone()` on them.
* The code of `AADNumber.h` and `threadPool.h` is not part of `src/`;
  the tape, `Number`, and the worker pool are modelled from the spec
  (sections 4.1, 4.2 and 5) where needed, as documented on the
  corresponding definitions.
-/

namespace CF

/-- Time is a real-valued instant (`using Time = double` in `mcBase.h`);
embedded as `ℚ`. -/
abbrev Time : Type := ℚ

/-- Embedding of `template <class T> struct scenario { T spot; }` from
`mcBase.h`: the model state on one event date. -/
structure scenario (T : Type) where
  spot : T
  deriving Repr, DecidableEq

/-- Embedding of the abstract class `Product<double>` of `mcBase.h`.
`timeline` and `payoff` are const members, hence plain functions; `clone`
is a value copy in the embedding. -/
structure Product where
  timeline : List Time
  payoff : List (scenario ℚ) → ℚ

/-- Embedding of the abstract class `Model<double>` of `mcBase.h` over an
abstract mutable state `M`.  `init` mutates the state (it caches the
product timeline), `simDim` and `generatePath` are const members reading
the state, `clone` is a value copy. -/
structure Model (M : Type) where
  init : List Time → M → M
  simDim : M → ℕ
  generatePath : M → List ℚ → List (scenario ℚ)

/-- Embedding of the abstract class `RNG` of `mcBase.h` over an abstract
state `σ`: `init` configures the dimension, `nextG` returns the next
Gaussian vector together with the advanced state, `skipTo` positions the
state, `clone` is a value copy. -/
structure RNG (σ : Type) where
  init : ℕ → σ → σ
  nextG : σ → List ℚ × σ
  skipTo : ℕ → σ → σ

variable {M σ : Type}

/-- State of an `RNG` after `k` calls to `nextG` (draw outputs discarded). -/
def advState (rng : RNG σ) (s : σ) : ℕ → σ
  | 0 => s
  | k + 1 => advState rng (rng.nextG s).2 k

/-- Gaussian vector returned by draw number `k` (0-based) of an `RNG`
started in state `s`. -/
def drawAt (rng : RNG σ) (s : σ) (k : ℕ) : List ℚ :=
  (rng.nextG (advState rng s k)).1

/-- Elementwise negation of a Gaussian vector
(`for (auto& gauss : gaussVec) gauss = -gauss;`). -/
def negVec (g : List ℚ) : List ℚ :=
  g.map (fun x => -x)

/-- Gaussian vector consumed by path number `i` of a sequential simulation
started in RNG state `s`: without antithetic sampling it is draw `i`; with
antithetic sampling even paths use draw `i / 2` and odd paths its
elementwise negation. -/
def gaussAt (rng : RNG σ) (antithetic : Bool) (s : σ) (i : ℕ) : List ℚ :=
  if antithetic then
    if i % 2 = 0 then drawAt rng s (i / 2) else negVec (drawAt rng s (i / 2))
  else drawAt rng s i

/-- Per-path record kept by the instrumented simulation loop: the Gaussian
vector actually consumed, the payoff written to `res[i]`, and the value of
the `antiPath` toggle right after the iteration. -/
structure PathRec where
  gauss : List ℚ
  val : ℚ
  antiAfter : Bool

/-- Mutable state of the sequential simulation loop of `mcSimul`
(`mcBase.h`, lines 112-138).  The const-reference originals (`mdl`, `rng`
arguments) are threaded through as `origM` / `origR`; the loop never
touches them. -/
structure SimSt (M σ : Type) where
  origM : M
  origR : σ
  rngS : σ
  gaussVec : List ℚ
  antiPath : Bool

/-- One execution of the antithetic block of the per-path loop
(`mcBase.h`, lines 116-135): returns the new RNG state, the Gaussian
vector consumed, and the new value of `antiPath`. -/
def antitheticStep (rng : RNG σ) (antithetic : Bool) (s : σ) (gaussVec : List ℚ)
    (antiPath : Bool) : σ × List ℚ × Bool :=
  if !antithetic then
    ((rng.nextG s).2, (rng.nextG s).1, antiPath)
  else
    if !antiPath then
      ((rng.nextG s).2, (rng.nextG s).1, true)
    else
      (s, negVec gaussVec, false)

/-- The per-path loop of `mcSimul` (`mcBase.h`, lines 112-138), iterating
over the remaining path count: draw the Gaussian vector per the antithetic
rule, generate the path, compute the payoff. -/
def mcSimulLoop (prd : Product) (mdl : Model M) (cM : M) (rng : RNG σ)
    (antithetic : Bool) : ℕ → SimSt M σ → List PathRec × SimSt M σ
  | 0, st => ([], st)
  | c + 1, st =>
      let step := antitheticStep rng antithetic st.rngS st.gaussVec st.antiPath
      let path := mdl.generatePath cM step.2.1
      let v := prd.payoff path
      let rest := mcSimulLoop prd mdl cM rng antithetic c
        { st with rngS := step.1, gaussVec := step.2.1, antiPath := step.2.2 }
      (⟨step.2.1, v, step.2.2⟩ :: rest.1, rest.2)

/-- Result of the instrumented `mcSimul`: the pathwise payoffs (the
returned `vector<double>`), the per-path records, and the final loop
state (which carries the untouched originals). -/
structure SimOut (M σ : Type) where
  res : List ℚ
  records : List PathRec
  final : SimSt M σ

/-- Embedding of `mcSimul` (`mcBase.h`, lines 93-141): clone the model and
RNG, `init` the clones, allocate the Gaussian buffer, then run the
per-path loop with `antiPath = false`. -/
def mcSimul (prd : Product) (mdl : Model M) (m0 : M) (rng : RNG σ) (s0 : σ)
    (nPath : ℕ) (antithetic : Bool) : SimOut M σ :=
  let cM := mdl.init prd.timeline m0
  let s1 := rng.init (mdl.simDim cM) s0
  let st0 : SimSt M σ :=
    ⟨m0, s0, s1, List.replicate (mdl.simDim cM) 0, false⟩
  let out := mcSimulLoop prd mdl cM rng antithetic nPath st0
  ⟨out.1.map (fun r => r.val), out.1, out.2⟩

/-- Gaussian vector of entry `k` of a loop started in RNG state `s` with
buffer `gv` and toggle value `ap` (closed form of the loop).  With
`ap = true` the first entry negates the buffer without consuming a draw
and the rest restarts as a fresh antithetic stream from `s`. -/
def expGauss (rng : RNG σ) (antithetic : Bool) (s : σ) (gv : List ℚ)
    (ap : Bool) (k : ℕ) : List ℚ :=
  if antithetic then
    if ap then (if k = 0 then negVec gv else gaussAt rng true s (k - 1))
    else gaussAt rng true s k
  else drawAt rng s k

/-- Toggle value right after entry `k` of a loop started with toggle `ap`. -/
def expAfter (antithetic : Bool) (ap : Bool) (k : ℕ) : Bool :=
  if antithetic then
    if ap then (if k = 0 then false else decide ((k - 1) % 2 = 0))
    else decide (k % 2 = 0)
  else ap

/-- Number of RNG draws consumed by a loop of `c` entries started with
toggle `ap`. -/
def expDraws (antithetic : Bool) (ap : Bool) (c : ℕ) : ℕ :=
  if antithetic then (if ap then c / 2 else (c + 1) / 2) else c

lemma advState_succ (rng : RNG σ) (s : σ) (k : ℕ) :
    advState rng s (k + 1) = advState rng (rng.nextG s).2 k := rfl

lemma advState_add (rng : RNG σ) (s : σ) (j k : ℕ) :
    advState rng s (j + k) = advState rng (advState rng s j) k := by
  induction j generalizing s with
  | zero => simp [advState]
  | succ j ih =>
      have : j + 1 + k = (j + k) + 1 := by omega
      rw [this, advState_succ, advState_succ, ih]

lemma drawAt_shift (rng : RNG σ) (s : σ) (k : ℕ) :
    drawAt rng (rng.nextG s).2 k = drawAt rng s (k + 1) := by
  simp [drawAt]
  have : k + 1 = 1 + k := by omega
  rw [this, advState_add]
  rfl

lemma expGauss_shift_nonanti (rng : RNG σ) (s : σ) (gv gv' : List ℚ) (ap : Bool) (k : ℕ) :
    expGauss rng false (rng.nextG s).2 gv' ap k = expGauss rng false s gv ap (k + 1) := by
  simp [expGauss, drawAt_shift]

lemma expGauss_shift_primary (rng : RNG σ) (s : σ) (gv : List ℚ) (k : ℕ) :
    expGauss rng true (rng.nextG s).2 (rng.nextG s).1 true k =
      expGauss rng true s gv false (k + 1) := by
  rcases k with _ | j
  · simp [expGauss, gaussAt, drawAt, negVec, advState]
  · have h1 : (j + 1 + 1) % 2 = j % 2 := by omega
    have h2 : (j + 1 + 1) / 2 = j / 2 + 1 := by omega
    simp [expGauss, gaussAt, h1, h2, drawAt_shift]

lemma expGauss_shift_anti (rng : RNG σ) (s : σ) (gv : List ℚ) (k : ℕ) :
    expGauss rng true s (negVec gv) false k = expGauss rng true s gv true (k + 1) := by
  simp [expGauss]

lemma expAfter_shift_nonanti (ap : Bool) (k : ℕ) :
    expAfter false ap k = expAfter false ap (k + 1) := by
  simp [expAfter]

lemma expAfter_shift_primary (k : ℕ) :
    expAfter true true k = expAfter true false (k + 1) := by
  rcases k with _ | j
  · simp [expAfter]
  · have h1 : (j + 1 + 1) % 2 = j % 2 := by omega
    simp [expAfter, h1]

lemma expAfter_shift_anti (k : ℕ) :
    expAfter true false k = expAfter true true (k + 1) := by
  simp [expAfter]

/-- State after one iteration of the per-path loop. -/
def stepSt (rng : RNG σ) (antithetic : Bool) (st : SimSt M σ) : SimSt M σ :=
  { st with rngS := (antitheticStep rng antithetic st.rngS st.gaussVec st.antiPath).1,
            gaussVec := (antitheticStep rng antithetic st.rngS st.gaussVec st.antiPath).2.1,
            antiPath := (antitheticStep rng antithetic st.rngS st.gaussVec st.antiPath).2.2 }

lemma mcSimulLoop_succ_eq (prd : Product) (mdl : Model M) (cM : M) (rng : RNG σ)
    (antithetic : Bool) (c : ℕ) (st : SimSt M σ) :
    mcSimulLoop prd mdl cM rng antithetic (c + 1) st =
      (⟨(antitheticStep rng antithetic st.rngS st.gaussVec st.antiPath).2.1,
        prd.payoff (mdl.generatePath cM
          (antitheticStep rng antithetic st.rngS st.gaussVec st.antiPath).2.1),
        (antitheticStep rng antithetic st.rngS st.gaussVec st.antiPath).2.2⟩ ::
          (mcSimulLoop prd mdl cM rng antithetic c (stepSt rng antithetic st)).1,
       (mcSimulLoop prd mdl cM rng antithetic c (stepSt rng antithetic st)).2) := rfl

/-- Closed form of the per-path loop of `mcSimul`: entry `k` consumes the
Gaussian vector `expGauss … k`, its payoff is the payoff of the generated
path, the toggle afterwards is `expAfter … k`; the loop advances the RNG
by `expDraws …` draws and never touches the threaded originals. -/
lemma mcSimulLoop_spec (prd : Product) (mdl : Model M) (cM : M) (rng : RNG σ)
    (antithetic : Bool) (c : ℕ) : ∀ st : SimSt M σ,
    (mcSimulLoop prd mdl cM rng antithetic c st).1 =
      (List.range c).map (fun k =>
        ⟨expGauss rng antithetic st.rngS st.gaussVec st.antiPath k,
         prd.payoff (mdl.generatePath cM
           (expGauss rng antithetic st.rngS st.gaussVec st.antiPath k)),
         expAfter antithetic st.antiPath k⟩) ∧
    (mcSimulLoop prd mdl cM rng antithetic c st).2.origM = st.origM ∧
    (mcSimulLoop prd mdl cM rng antithetic c st).2.origR = st.origR ∧
    (mcSimulLoop prd mdl cM rng antithetic c st).2.rngS =
      advState rng st.rngS (expDraws antithetic st.antiPath c) := by
  induction c with
  | zero => intro st; simp [mcSimulLoop, advState, expDraws]
  | succ c ih =>
      intro st
      obtain ⟨oM, oR, rs, gv, ap⟩ := st
      cases antithetic with
      | false =>
          have hstep : antitheticStep rng false rs gv ap =
              ((rng.nextG rs).2, (rng.nextG rs).1, ap) := by
            simp [antitheticStep]
          have hst : stepSt rng false (⟨oM, oR, rs, gv, ap⟩ : SimSt M σ) =
              ⟨oM, oR, (rng.nextG rs).2, (rng.nextG rs).1, ap⟩ := by
            simp [stepSt, hstep]
          refine ⟨?_, ?_, ?_, ?_⟩
          · rw [mcSimulLoop_succ_eq, List.range_succ_eq_map, hstep, hst]
            refine congrArg₂ _ ?_ ?_
            · simp [expGauss, expAfter, drawAt, advState]
            · rw [(ih _).1, List.map_map]
              dsimp only
              refine congrArg (fun F => List.map F (List.range c)) (funext fun k => ?_)
              dsimp only [Function.comp]
              rw [expGauss_shift_nonanti rng rs gv (rng.nextG rs).1 ap k,
                expAfter_shift_nonanti ap k]
          · rw [mcSimulLoop_succ_eq, hst]
            simpa using (ih _).2.1
          · rw [mcSimulLoop_succ_eq, hst]
            simpa using (ih _).2.2.1
          · rw [mcSimulLoop_succ_eq, hst]
            have h := (ih (⟨oM, oR, (rng.nextG rs).2, (rng.nextG rs).1, ap⟩ : SimSt M σ)).2.2.2
            dsimp only at h
            rw [h]
            have e1 : expDraws false ap c = c := by simp [expDraws]
            have e2 : expDraws false ap (c + 1) = c + 1 := by simp [expDraws]
            rw [e1, e2, advState_succ]
      | true =>
          cases ap with
          | false =>
              have hstep : antitheticStep rng true rs gv false =
                  ((rng.nextG rs).2, (rng.nextG rs).1, true) := by
                simp [antitheticStep]
              have hst : stepSt rng true (⟨oM, oR, rs, gv, false⟩ : SimSt M σ) =
                  ⟨oM, oR, (rng.nextG rs).2, (rng.nextG rs).1, true⟩ := by
                simp [stepSt, hstep]
              refine ⟨?_, ?_, ?_, ?_⟩
              · rw [mcSimulLoop_succ_eq, List.range_succ_eq_map, hstep, hst]
                refine congrArg₂ _ ?_ ?_
                · simp [expGauss, expAfter, gaussAt, drawAt, advState]
                · rw [(ih _).1, List.map_map]
                  dsimp only
                  refine congrArg (fun F => List.map F (List.range c)) (funext fun k => ?_)
                  dsimp only [Function.comp]
                  rw [expGauss_shift_primary rng rs gv k, expAfter_shift_primary k]
              · rw [mcSimulLoop_succ_eq, hst]
                simpa using (ih _).2.1
              · rw [mcSimulLoop_succ_eq, hst]
                simpa using (ih _).2.2.1
              · rw [mcSimulLoop_succ_eq, hst]
                have h := (ih (⟨oM, oR, (rng.nextG rs).2, (rng.nextG rs).1, true⟩ : SimSt M σ)).2.2.2
                dsimp only at h
                rw [h]
                have e1 : expDraws true true c = c / 2 := by simp [expDraws]
                have e2 : expDraws true false (c + 1) = (c + 1 + 1) / 2 := by
                  simp [expDraws]
                have e3 : (c + 1 + 1) / 2 = 1 + c / 2 := by omega
                rw [e1, e2, e3, advState_add]
                rfl
          | true =>
              have hstep : antitheticStep rng true rs gv true =
                  (rs, negVec gv, false) := by
                simp [antitheticStep]
              have hst : stepSt rng true (⟨oM, oR, rs, gv, true⟩ : SimSt M σ) =
                  ⟨oM, oR, rs, negVec gv, false⟩ := by
                simp [stepSt, hstep]
              refine ⟨?_, ?_, ?_, ?_⟩
              · rw [mcSimulLoop_succ_eq, List.range_succ_eq_map, hstep, hst]
                refine congrArg₂ _ ?_ ?_
                · simp [expGauss, expAfter]
                · rw [(ih _).1, List.map_map]
                  dsimp only
                  refine congrArg (fun F => List.map F (List.range c)) (funext fun k => ?_)
                  dsimp only [Function.comp]
                  rw [expGauss_shift_anti rng rs gv k, expAfter_shift_anti k]
              · rw [mcSimulLoop_succ_eq, hst]
                simpa using (ih _).2.1
              · rw [mcSimulLoop_succ_eq, hst]
                simpa using (ih _).2.2.1
              · rw [mcSimulLoop_succ_eq, hst]
                have h := (ih (⟨oM, oR, rs, negVec gv, false⟩ : SimSt M σ)).2.2.2
                dsimp only at h
                rw [h]
                have e1 : expDraws true false c = (c + 1) / 2 := by simp [expDraws]
                have e2 : expDraws true true (c + 1) = (c + 1) / 2 := by
                  simp [expDraws]
                rw [e1, e2]

/-- RNG state right after `cRng->init(cMdl->simDim())` in `mcSimul`
(the state the per-path loop starts from). -/
def mcSimulRngStart (prd : Product) (mdl : Model M) (m0 : M) (rng : RNG σ) (s0 : σ) : σ :=
  rng.init (mdl.simDim (mdl.init prd.timeline m0)) s0

/-- Claim C6: with `antithetic = true` the per-path loop of `mcSimul`
alternates starting from a primary step: path `i` consumes
`gaussAt rng true s1 i`, i.e. draw `i / 2` on even (primary) paths and its
elementwise negation on odd paths with no fresh draw; the toggle is `true`
right after even paths and `false` right after odd paths; the whole loop
consults the RNG exactly `⌈nPath / 2⌉` times, so an odd `nPath` leaves the
last (even-numbered) path unpaired with a primary draw. -/
theorem c6_antithetic_pairs (prd : Product) (mdl : Model M) (m0 : M) (rng : RNG σ)
    (s0 : σ) (nPath : ℕ) :
    (mcSimul prd mdl m0 rng s0 nPath true).records =
      (List.range nPath).map (fun i =>
        ⟨gaussAt rng true (mcSimulRngStart prd mdl m0 rng s0) i,
         prd.payoff (mdl.generatePath (mdl.init prd.timeline m0)
           (gaussAt rng true (mcSimulRngStart prd mdl m0 rng s0) i)),
         decide (i % 2 = 0)⟩) ∧
    (mcSimul prd mdl m0 rng s0 nPath true).final.rngS =
      advState rng (mcSimulRngStart prd mdl m0 rng s0) ((nPath + 1) / 2) := by
  have hs := mcSimulLoop_spec prd mdl (mdl.init prd.timeline m0) rng true nPath
    (⟨m0, s0, rng.init (mdl.simDim (mdl.init prd.timeline m0)) s0,
      List.replicate (mdl.simDim (mdl.init prd.timeline m0)) 0, false⟩ : SimSt M σ)
  dsimp only at hs
  simp only [mcSimulRngStart]
  constructor
  · show (mcSimulLoop prd mdl (mdl.init prd.timeline m0) rng true nPath _).1 = _
    rw [hs.1]
    refine congrArg (fun F => List.map F (List.range nPath)) (funext fun k => ?_)
    dsimp only
    rw [show expGauss rng true
        (rng.init (mdl.simDim (mdl.init prd.timeline m0)) s0)
        (List.replicate (mdl.simDim (mdl.init prd.timeline m0)) 0) false k =
        gaussAt rng true (rng.init (mdl.simDim (mdl.init prd.timeline m0)) s0) k from by
      simp [expGauss]]
    rw [show expAfter true false k = decide (k % 2 = 0) from by simp [expAfter]]
  · show (mcSimulLoop prd mdl (mdl.init prd.timeline m0) rng true nPath _).2.rngS = _
    rw [hs.2.2.2]
    simp [expDraws]

/-- Wraparound of a mathematical integer to the two's-complement range of
a 32-bit C++ `int` (the type of the loop counter `i` in `RNG::skipTo`). -/
def int32wrap (z : ℤ) : ℤ :=
  (z + 2 ^ 31) % 2 ^ 32 - 2 ^ 31

/-- Embedding of the loop body of the base-class default
`RNG::skipTo(const long b)` (`mcBase.h`, lines 84-88):
`for (int i = 0; i < b; ++i) nextG(dummy);`.
The counter `i` is a 32-bit `int` and wraps on increment, while the bound
`b` is a 64-bit `long`; `fuel` bounds the number of executed iterations,
and `none` means the loop has not terminated within `fuel` steps. -/
def skipToLoop (rng : RNG σ) (b : ℤ) : ℕ → ℤ × σ → Option σ
  | 0, _ => none
  | fuel + 1, (i, s) =>
      if i < b then skipToLoop rng b fuel (int32wrap (i + 1), (rng.nextG s).2)
      else some s

/-- The base-class default `RNG::skipTo(b)` for a nonnegative bound `b`,
started at `i = 0`, with a fuel bound on the iterations. -/
def skipToDefault (rng : RNG σ) (b : ℕ) (fuel : ℕ) (s : σ) : Option σ :=
  skipToLoop rng (b : ℤ) fuel (0, s)

lemma int32wrap_lb (z : ℤ) : -2 ^ 31 ≤ int32wrap z := by
  have h := Int.emod_nonneg (z + 2 ^ 31) (by norm_num : (2 ^ 32 : ℤ) ≠ 0)
  unfold int32wrap
  omega

lemma int32wrap_ub (z : ℤ) : int32wrap z < 2 ^ 31 := by
  have h := Int.emod_lt_of_pos (z + 2 ^ 31) (by norm_num : (0 : ℤ) < 2 ^ 32)
  unfold int32wrap
  omega

lemma int32wrap_id (z : ℤ) (h0 : 0 ≤ z) (h1 : z < 2 ^ 31) : int32wrap z = z := by
  unfold int32wrap
  rw [Int.emod_eq_of_lt (by omega) (by omega)]
  omega

/-- Within the `int` range the default `skipTo` loop terminates and calls
`nextG` exactly `b` times. -/
lemma skipToLoop_run (rng : RNG σ) (b : ℤ) (hb : b < 2 ^ 31) :
    ∀ (r f : ℕ) (i : ℤ) (s : σ), r ≤ f → i = b - r → 0 ≤ i →
      skipToLoop rng b (f + 1) (i, s) = some (advState rng s r) := by
  intro r
  induction r with
  | zero =>
      intro f i s _ hi _
      have : ¬ i < b := by omega
      simp [skipToLoop, this, advState]
  | succ r ih =>
      intro f i s hrf hi h0
      obtain ⟨f', rfl⟩ : ∃ f', f = f' + 1 := ⟨f - 1, by omega⟩
      have hilt : i < b := by omega
      have hwrap : int32wrap (i + 1) = i + 1 := int32wrap_id _ (by omega) (by omega)
      have step : skipToLoop rng b (f' + 1 + 1) (i, s) =
          skipToLoop rng b (f' + 1) (i + 1, (rng.nextG s).2) := by
        simp [skipToLoop, hilt, hwrap]
      rw [step, ih f' (i + 1) (rng.nextG s).2 (by omega) (by omega) (by omega)]
      rw [← advState_succ]

/-- Correct skip within the `int` range: for `b < 2^31` the default
`skipTo(b)` terminates (with fuel `b + 1`) in the state reached by `b`
calls to `nextG`, so the next `nextG` returns draw number `b`. -/
lemma skipToDefault_exact (rng : RNG σ) (b : ℕ) (hb : (b : ℤ) < 2 ^ 31) (s : σ) :
    skipToDefault rng b (b + 1) s = some (advState rng s b) := by
  unfold skipToDefault
  have := skipToLoop_run rng (b : ℤ) hb b b 0 s (le_refl b) (by omega) (by omega)
  simpa using this

/-- Claim C7 (failing part): at `k = 2^31` the default `skipTo` never
terminates — the 32-bit counter `i` always satisfies `i < b`, for any
amount of fuel — so the skip-ahead contract cannot hold for every
`k ≥ 0`. -/
theorem c7_skipTo_overflow_diverges :
    ∀ {σ : Type} (rng : RNG σ) (fuel : ℕ) (s : σ),
      skipToDefault rng (2 ^ 31) fuel s = none := by
  intro σ rng fuel s
  suffices h : ∀ (fuel : ℕ) (i : ℤ) (s : σ), -2 ^ 31 ≤ i → i < 2 ^ 31 →
      skipToLoop rng ((2 ^ 31 : ℕ) : ℤ) fuel (i, s) = none by
    exact h fuel 0 s (by norm_num) (by norm_num)
  intro fuel
  induction fuel with
  | zero => intro i s _ _; rfl
  | succ fuel ih =>
      intro i s hlb hub
      have hilt : i < ((2 ^ 31 : ℕ) : ℤ) := by push_cast; omega
      simp only [skipToLoop, hilt, if_pos]
      exact ih _ _ (int32wrap_lb _) (int32wrap_ub _)

/-- The compile-time `#define BATCHSIZE 64` of `mcBase.h`. -/
def BATCHSIZE : ℕ := 64

/-- Fuel-indexed version of the batch-spawning loop of `mcParallelSimul`;
every iteration consumes at least one path, so a fuel of `pathsLeft`
suffices and the recursion is structural (hence kernel-evaluable). -/
def batchLoopF : ℕ → ℕ → ℕ → List (ℕ × ℕ)
  | 0, _, _ => []
  | _ + 1, _, 0 => []
  | fuel + 1, f, pl + 1 =>
      (f, min (pl + 1) BATCHSIZE) ::
        batchLoopF fuel (f + min (pl + 1) BATCHSIZE) (pl + 1 - min (pl + 1) BATCHSIZE)

/-- The batch-spawning `while (pathsLeft > 0)` loop of `mcParallelSimul`
(`mcBase.h`, lines 179-231): produces the list of
`(firstPath, pathsInTask)` pairs in spawn order, with
`pathsInTask = min(pathsLeft, BATCHSIZE)`. -/
def batchLoop (f pl : ℕ) : List (ℕ × ℕ) :=
  batchLoopF pl f pl

lemma batchLoopF_pl_zero : ∀ (fuel f : ℕ), batchLoopF fuel f 0 = [] := by
  intro fuel f
  cases fuel <;> rfl

lemma batchLoopF_congr : ∀ (fuel fuel' f pl : ℕ), pl ≤ fuel → pl ≤ fuel' →
    batchLoopF fuel f pl = batchLoopF fuel' f pl := by
  intro fuel
  induction fuel with
  | zero =>
      intro fuel' f pl h _
      have : pl = 0 := by omega
      subst this
      rw [batchLoopF_pl_zero, batchLoopF_pl_zero]
  | succ fuel ih =>
      intro fuel' f pl h h'
      match pl with
      | 0 => rw [batchLoopF_pl_zero, batchLoopF_pl_zero]
      | pl + 1 =>
          obtain ⟨fu, rfl⟩ : ∃ fu, fuel' = fu + 1 := ⟨fuel' - 1, by omega⟩
          show (f, min (pl + 1) BATCHSIZE) :: _ = (f, min (pl + 1) BATCHSIZE) :: _
          have hB : BATCHSIZE = 64 := rfl
          exact congrArg _ (ih fu _ _ (by omega) (by omega))

lemma batchLoop_zero (f : ℕ) : batchLoop f 0 = [] := rfl

lemma batchLoop_succ (f pl : ℕ) :
    batchLoop f (pl + 1) =
      (f, min (pl + 1) BATCHSIZE) ::
        batchLoop (f + min (pl + 1) BATCHSIZE) (pl + 1 - min (pl + 1) BATCHSIZE) := by
  show (f, min (pl + 1) BATCHSIZE) :: _ = (f, min (pl + 1) BATCHSIZE) :: _
  have hB : BATCHSIZE = 64 := rfl
  exact congrArg _ (batchLoopF_congr pl _ _ _ (by omega) (by omega))

/-- Payoffs computed by one task of `mcParallelSimul` (`mcBase.h`, lines
185-227) from the task-local RNG state `sTask`: the per-path loop is
textually the same as in `mcSimul` (with a task-local `antiPath = false`),
so it is embedded by the same `mcSimulLoop`; the task-local Gaussian
buffer starts from the thread's pre-allocated buffer, whose content is
never read before being overwritten (the first iteration is a primary
draw), and is passed as the zero buffer here. -/
def taskValues (prd : Product) (mdl : Model M) (cM : M) (rng : RNG σ)
    (antithetic : Bool) (sTask : σ) (pathsInTask : ℕ) : List ℚ :=
  ((mcSimulLoop prd mdl cM rng antithetic pathsInTask
      ⟨cM, sTask, sTask, List.replicate (mdl.simDim cM) 0, false⟩).1).map
    (fun r => r.val)

/-- Writes performed by one task of `mcParallelSimul`: the task clones the
initialized RNG `s1`, positions it with
`skipTo(antithetic ? firstPath / 2 : firstPath)`, and writes
`res[firstPath + i]` for `i < pathsInTask`. -/
def taskWrites (prd : Product) (mdl : Model M) (cM : M) (rng : RNG σ)
    (antithetic : Bool) (s1 : σ) (firstPath pathsInTask : ℕ) : List (ℕ × ℚ) :=
  (List.range' firstPath pathsInTask).zip
    (taskValues prd mdl cM rng antithetic
      (rng.skipTo (if antithetic then firstPath / 2 else firstPath) s1) pathsInTask)

/-- Application of a list of indexed writes to the result vector
(`res[firstPath + i] = prd.payoff(path)`). -/
def applyWrites (ws : List (ℕ × ℚ)) (res : List ℚ) : List ℚ :=
  ws.foldl (fun a w => a.set w.1 w.2) res

/-- All writes of a run of `mcParallelSimul`, batch by batch in spawn
order. -/
def parallelWrites (prd : Product) (mdl : Model M) (m0 : M) (rng : RNG σ) (s0 : σ)
    (nPath : ℕ) (antithetic : Bool) : List (ℕ × ℚ) :=
  ((batchLoop 0 nPath).map (fun b =>
    taskWrites prd mdl (mdl.init prd.timeline m0) rng antithetic
      (mcSimulRngStart prd mdl m0 rng s0) b.1 b.2)).flatten

/-- Result of the instrumented `mcParallelSimul`: the assembled payoff
vector plus the untouched originals threaded through the batch fold. -/
structure ParOut (M σ : Type) where
  res : List ℚ
  origM : M
  origR : σ

/-- Embedding of `mcParallelSimul` (`mcBase.h`, lines 148-237): clone and
init the model and RNG, allocate `res(nPath)` (zero-initialized), spawn
one task per batch and apply each task's writes; the fold applies the
batches in spawn order (any schedule gives the same vector, which is the
content of claims C2 and C8). -/
def mcParallelSimul (prd : Product) (mdl : Model M) (m0 : M) (rng : RNG σ) (s0 : σ)
    (nPath : ℕ) (antithetic : Bool) : ParOut M σ :=
  let cM := mdl.init prd.timeline m0
  let s1 := rng.init (mdl.simDim cM) s0
  let out := (batchLoop 0 nPath).foldl
    (fun (acc : List ℚ × M × σ) b =>
      (applyWrites (taskWrites prd mdl cM rng antithetic s1 b.1 b.2) acc.1, acc.2))
    (List.replicate nPath 0, m0, s0)
  ⟨out.1, out.2.1, out.2.2⟩

lemma batchLoop_ranges : ∀ (pl f : ℕ),
    ((batchLoop f pl).map (fun b => List.range' b.1 b.2)).flatten = List.range' f pl := by
  intro pl
  induction pl using Nat.strong_induction_on with
  | _ pl ih =>
      intro f
      match pl with
      | 0 => simp [batchLoop_zero]
      | pl + 1 =>
          have hB : BATCHSIZE = 64 := rfl
          rw [batchLoop_succ]
          simp only [List.map_cons, List.flatten_cons]
          rw [ih (pl + 1 - min (pl + 1) BATCHSIZE) (by omega) (f + min (pl + 1) BATCHSIZE)]
          rw [List.range'_append_1]
          have harg : pl + 1 - min (pl + 1) BATCHSIZE + min (pl + 1) BATCHSIZE = pl + 1 := by
            omega
          rw [harg]

/-- Structure of the spawned batches: each batch starts at a `firstPath`
at or past the starting index, holds `min(pathsLeft, BATCHSIZE)`
consecutive paths where `pathsLeft` counts the paths from its `firstPath`
to the end, and is nonempty. -/
lemma batchLoop_mem : ∀ (pl f : ℕ), ∀ b ∈ batchLoop f pl,
    f ≤ b.1 ∧ b.1 + b.2 ≤ f + pl ∧ b.2 = min (f + pl - b.1) BATCHSIZE ∧ 1 ≤ b.2 := by
  intro pl
  induction pl using Nat.strong_induction_on with
  | _ pl ih =>
      intro f b hb
      have hB : BATCHSIZE = 64 := rfl
      match pl with
      | 0 => rw [batchLoop_zero] at hb; simp at hb
      | pl + 1 =>
          rw [batchLoop_succ] at hb
          rcases List.mem_cons.mp hb with h | h
          · subst h
            dsimp only
            omega
          · obtain ⟨h1, h2, h3, h4⟩ := ih (pl + 1 - min (pl + 1) BATCHSIZE) (by omega)
              (f + min (pl + 1) BATCHSIZE) b h
            omega

/-- Batches start at multiples of `BATCHSIZE` (relative to a starting
index that is itself a multiple): only the final, short batch can end off
a multiple, and it spawns no successor. -/
lemma batchLoop_aligned : ∀ (pl f : ℕ), BATCHSIZE ∣ f →
    ∀ b ∈ batchLoop f pl, BATCHSIZE ∣ b.1 := by
  intro pl
  induction pl using Nat.strong_induction_on with
  | _ pl ih =>
      intro f hf b hb
      have hB : BATCHSIZE = 64 := rfl
      match pl with
      | 0 => rw [batchLoop_zero] at hb; simp at hb
      | pl + 1 =>
          rw [batchLoop_succ] at hb
          rcases List.mem_cons.mp hb with h | h
          · subst h; exact hf
          · rcases Nat.lt_or_ge (pl + 1) BATCHSIZE with hlt | hge
            · have h0 : pl + 1 - min (pl + 1) BATCHSIZE = 0 := by omega
              rw [h0, batchLoop_zero] at h
              simp at h
            · have hmin : min (pl + 1) BATCHSIZE = BATCHSIZE := by omega
              rw [hmin] at h
              exact ih (pl + 1 - BATCHSIZE) (by omega)
                (f + BATCHSIZE) (Dvd.dvd.add hf dvd_rfl) b h

lemma applyWrites_nil (res : List ℚ) : applyWrites [] res = res := rfl

lemma applyWrites_cons (w : ℕ × ℚ) (ws : List (ℕ × ℚ)) (res : List ℚ) :
    applyWrites (w :: ws) res = applyWrites ws (res.set w.1 w.2) := rfl

lemma applyWrites_append (ws1 ws2 : List (ℕ × ℚ)) (res : List ℚ) :
    applyWrites (ws1 ++ ws2) res = applyWrites ws2 (applyWrites ws1 res) := by
  simp [applyWrites, List.foldl_append]

lemma applyWrites_length (ws : List (ℕ × ℚ)) (res : List ℚ) :
    (applyWrites ws res).length = res.length := by
  induction ws generalizing res with
  | nil => rfl
  | cons w ws ih => rw [applyWrites_cons, ih, List.length_set]

/-- Writes at pairwise distinct indices commute: applying them in any
order produces the same vector. -/
lemma applyWrites_perm (ws ws' : List (ℕ × ℚ)) (h : ws.Perm ws') :
    (ws.map Prod.fst).Nodup → ∀ res : List ℚ,
      applyWrites ws' res = applyWrites ws res := by
  induction h with
  | nil => intro _ res; rfl
  | cons x h ih =>
      intro hnd res
      rw [applyWrites_cons, applyWrites_cons]
      refine ih ?_ _
      have := hnd
      simp only [List.map_cons, List.nodup_cons] at this
      exact this.2
  | swap x y l =>
      intro hnd res
      rw [applyWrites_cons, applyWrites_cons, applyWrites_cons, applyWrites_cons]
      have hxy : x.1 ≠ y.1 := by
        have := hnd
        simp only [List.map_cons, List.nodup_cons, List.mem_cons] at this
        exact fun e => this.1 (Or.inl e.symm)
      rw [List.set_comm x.2 y.2 res hxy]
  | trans h1 h2 ih1 ih2 =>
      intro hnd res
      rw [ih2 (((h1.map Prod.fst).nodup_iff).mp hnd) res, ih1 hnd res]

lemma applyWrites_getElem_not_mem (ws : List (ℕ × ℚ)) (res : List ℚ) (j : ℕ)
    (hj : j ∉ ws.map Prod.fst) :
    (applyWrites ws res)[j]? = res[j]? := by
  induction ws generalizing res with
  | nil => rfl
  | cons w ws ih =>
      simp only [List.map_cons, List.mem_cons] at hj
      push_neg at hj
      rw [applyWrites_cons, ih _ hj.2, List.getElem?_set_ne (Ne.symm hj.1)]

lemma applyWrites_getElem_mem (ws : List (ℕ × ℚ)) (res : List ℚ) (j : ℕ) (v : ℚ)
    (hnd : (ws.map Prod.fst).Nodup) (hmem : (j, v) ∈ ws) (hj : j < res.length) :
    (applyWrites ws res)[j]? = some v := by
  induction ws generalizing res with
  | nil => simp at hmem
  | cons w ws ih =>
      simp only [List.map_cons, List.nodup_cons] at hnd
      rcases List.mem_cons.mp hmem with h | h
      · subst h
        rw [applyWrites_cons, applyWrites_getElem_not_mem _ _ _ (by simpa using hnd.1)]
        exact List.getElem?_set_self (by simpa using hj)
      · rw [applyWrites_cons]
        exact ih _ hnd.2 h (by simpa using hj)

lemma expGauss_false_start (rng : RNG σ) (antithetic : Bool) (s : σ) (gv : List ℚ)
    (k : ℕ) : expGauss rng antithetic s gv false k = gaussAt rng antithetic s k := by
  cases antithetic <;> simp [expGauss, gaussAt]

/-- Pathwise payoff of path `j` of a sequential run whose loop starts in
RNG state `s1`, with the model clone already initialized to `cM`. -/
def seqPayoff (prd : Product) (mdl : Model M) (cM : M) (rng : RNG σ)
    (antithetic : Bool) (s1 : σ) (j : ℕ) : ℚ :=
  prd.payoff (mdl.generatePath cM (gaussAt rng antithetic s1 j))

/-- Closed form of the payoff vector returned by `mcSimul`. -/
lemma mcSimul_res (prd : Product) (mdl : Model M) (m0 : M) (rng : RNG σ) (s0 : σ)
    (nPath : ℕ) (antithetic : Bool) :
    (mcSimul prd mdl m0 rng s0 nPath antithetic).res =
      (List.range nPath).map
        (seqPayoff prd mdl (mdl.init prd.timeline m0) rng antithetic
          (mcSimulRngStart prd mdl m0 rng s0)) := by
  have hs := mcSimulLoop_spec prd mdl (mdl.init prd.timeline m0) rng antithetic nPath
    (⟨m0, s0, rng.init (mdl.simDim (mdl.init prd.timeline m0)) s0,
      List.replicate (mdl.simDim (mdl.init prd.timeline m0)) 0, false⟩ : SimSt M σ)
  dsimp only at hs
  show ((mcSimulLoop prd mdl (mdl.init prd.timeline m0) rng antithetic nPath _).1).map
    (fun r => r.val) = _
  rw [hs.1, List.map_map]
  refine congrArg (fun F => List.map F (List.range nPath)) (funext fun k => ?_)
  simp only [Function.comp, seqPayoff, mcSimulRngStart]
  rw [expGauss_false_start]

/-- Closed form of one task's payoff list. -/
lemma taskValues_eq (prd : Product) (mdl : Model M) (cM : M) (rng : RNG σ)
    (antithetic : Bool) (sTask : σ) (c : ℕ) :
    taskValues prd mdl cM rng antithetic sTask c =
      (List.range c).map (seqPayoff prd mdl cM rng antithetic sTask) := by
  have hs := mcSimulLoop_spec prd mdl cM rng antithetic c
    (⟨cM, sTask, sTask, List.replicate (mdl.simDim cM) 0, false⟩ : SimSt M σ)
  dsimp only at hs
  unfold taskValues
  rw [hs.1, List.map_map]
  refine congrArg (fun F => List.map F (List.range c)) (funext fun k => ?_)
  simp only [Function.comp, seqPayoff]
  rw [expGauss_false_start]

lemma taskValues_length (prd : Product) (mdl : Model M) (cM : M) (rng : RNG σ)
    (antithetic : Bool) (sTask : σ) (c : ℕ) :
    (taskValues prd mdl cM rng antithetic sTask c).length = c := by
  rw [taskValues_eq]; simp

lemma drawAt_advState (rng : RNG σ) (s : σ) (m k : ℕ) :
    drawAt rng (advState rng s m) k = drawAt rng s (m + k) := by
  simp [drawAt, advState_add]

/-- Positioning a fresh antithetic stream with `skipTo(f / 2)` at an even
batch start `f` reproduces the tail of the global antithetic stream. -/
lemma gaussAt_skip (rng : RNG σ) (antithetic : Bool) (s : σ) (f k : ℕ)
    (hf : antithetic = true → f % 2 = 0) :
    gaussAt rng antithetic (advState rng s (if antithetic then f / 2 else f)) k =
      gaussAt rng antithetic s (f + k) := by
  cases antithetic with
  | false => simp [gaussAt, drawAt_advState]
  | true =>
      have hf2 : f % 2 = 0 := hf rfl
      have hmod : (f + k) % 2 = k % 2 := by omega
      have hdiv : (f + k) / 2 = f / 2 + k / 2 := by omega
      simp only [gaussAt, if_true, hmod, hdiv, if_pos rfl, drawAt_advState]

/-- Index projection of the full write list: every path index in
`[0, nPath)` appears exactly once, in batch order. -/
lemma parallelWrites_fst (prd : Product) (mdl : Model M) (m0 : M) (rng : RNG σ)
    (s0 : σ) (nPath : ℕ) (antithetic : Bool) :
    (parallelWrites prd mdl m0 rng s0 nPath antithetic).map Prod.fst =
      List.range nPath := by
  unfold parallelWrites
  rw [List.map_flatten, List.map_map]
  rw [show (List.map Prod.fst ∘ fun b : ℕ × ℕ =>
      taskWrites prd mdl (mdl.init prd.timeline m0) rng antithetic
        (mcSimulRngStart prd mdl m0 rng s0) b.1 b.2) =
      (fun b : ℕ × ℕ => List.range' b.1 b.2) from funext fun b => ?_]
  · rw [batchLoop_ranges, List.range_eq_range']
  · simp only [Function.comp, taskWrites]
    exact List.map_fst_zip _ _ (by rw [taskValues_length, List.length_range'])

/-- Under an exact functional skip-ahead, the write list of
`mcParallelSimul` contains, for every path index `j`, the sequential
payoff of path `j`. -/
lemma parallelWrites_mem (prd : Product) (mdl : Model M) (m0 : M) (rng : RNG σ)
    (s0 : σ) (nPath : ℕ) (antithetic : Bool)
    (hskip : ∀ (k : ℕ) (s : σ), rng.skipTo k s = advState rng s k)
    (j : ℕ) (hj : j < nPath) :
    (j, seqPayoff prd mdl (mdl.init prd.timeline m0) rng antithetic
        (mcSimulRngStart prd mdl m0 rng s0) j) ∈
      parallelWrites prd mdl m0 rng s0 nPath antithetic := by
  have hjmem : j ∈ ((batchLoop 0 nPath).map (fun b => List.range' b.1 b.2)).flatten := by
    rw [batchLoop_ranges]
    rw [List.mem_range'_1]
    omega
  rw [List.mem_flatten] at hjmem
  obtain ⟨l, hl, hjl⟩ := hjmem
  rw [List.mem_map] at hl
  obtain ⟨b, hb, rfl⟩ := hl
  rw [List.mem_range'_1] at hjl
  obtain ⟨hj1, hj2⟩ := hjl
  obtain ⟨hb1, hb2, hb3, hb4⟩ := batchLoop_mem nPath 0 b hb
  have hB : BATCHSIZE = 64 := rfl
  have halign : antithetic = true → b.1 % 2 = 0 := by
    intro _
    have h64 := batchLoop_aligned nPath 0 ⟨0, rfl⟩ b hb
    rw [hB] at h64
    omega
  unfold parallelWrites
  rw [List.mem_flatten]
  refine ⟨taskWrites prd mdl (mdl.init prd.timeline m0) rng antithetic
    (mcSimulRngStart prd mdl m0 rng s0) b.1 b.2, List.mem_map_of_mem _ hb, ?_⟩
  rw [List.mem_iff_getElem?]
  refine ⟨j - b.1, ?_⟩
  unfold taskWrites
  rw [List.getElem?_zip_eq_some]
  constructor
  · rw [List.getElem?_range' _ _ (by omega : j - b.1 < b.2)]
    simp only
    refine congrArg _ (by omega)
  · rw [taskValues_eq, List.getElem?_map, List.getElem?_range (by omega : j - b.1 < b.2)]
    rw [Option.map_some']
    refine congrArg _ ?_
    simp only [seqPayoff]
    rw [hskip]
    rw [gaussAt_skip rng antithetic (mcSimulRngStart prd mdl m0 rng s0) b.1 (j - b.1) halign]
    rw [show b.1 + (j - b.1) = j from by omega]

/-- The batch fold of `mcParallelSimul` applies the concatenated write
list and leaves the second accumulator component (the threaded originals)
untouched. -/
lemma foldl_applyWrites (tw : ℕ × ℕ → List (ℕ × ℚ)) :
    ∀ (bs : List (ℕ × ℕ)) (acc : List ℚ × M × σ),
      bs.foldl (fun acc b => (applyWrites (tw b) acc.1, acc.2)) acc =
        (applyWrites ((bs.map tw).flatten) acc.1, acc.2) := by
  intro bs
  induction bs with
  | nil => intro acc; simp [applyWrites]
  | cons b bs ih =>
      intro acc
      rw [List.foldl_cons, ih, List.map_cons, List.flatten_cons, applyWrites_append]

/-- The vector assembled by `mcParallelSimul` is the write list applied to
the zero-initialized result, and the originals come out untouched. -/
lemma mcParallelSimul_eq (prd : Product) (mdl : Model M) (m0 : M) (rng : RNG σ)
    (s0 : σ) (nPath : ℕ) (antithetic : Bool) :
    (mcParallelSimul prd mdl m0 rng s0 nPath antithetic).res =
      applyWrites (parallelWrites prd mdl m0 rng s0 nPath antithetic)
        (List.replicate nPath 0) ∧
    (mcParallelSimul prd mdl m0 rng s0 nPath antithetic).origM = m0 ∧
    (mcParallelSimul prd mdl m0 rng s0 nPath antithetic).origR = s0 := by
  unfold mcParallelSimul parallelWrites mcSimulRngStart
  dsimp only
  rw [foldl_applyWrites]
  exact ⟨rfl, rfl, rfl⟩

/-- Core determinism argument: applying the writes of `mcParallelSimul`
in any order to the zero vector reproduces the sequential payoff vector,
provided the RNG skip-ahead is exact. -/
lemma parallel_assembled_eq (prd : Product) (mdl : Model M) (m0 : M) (rng : RNG σ)
    (s0 : σ) (nPath : ℕ) (antithetic : Bool)
    (hskip : ∀ (k : ℕ) (s : σ), rng.skipTo k s = advState rng s k)
    (ws' : List (ℕ × ℚ))
    (hperm : ws'.Perm (parallelWrites prd mdl m0 rng s0 nPath antithetic)) :
    applyWrites ws' (List.replicate nPath 0) =
      (mcSimul prd mdl m0 rng s0 nPath antithetic).res := by
  have hnd : ((parallelWrites prd mdl m0 rng s0 nPath antithetic).map Prod.fst).Nodup := by
    rw [parallelWrites_fst]; exact List.nodup_range nPath
  rw [applyWrites_perm _ _ hperm.symm hnd]
  rw [mcSimul_res]
  apply List.ext_getElem?
  intro n
  by_cases hn : n < nPath
  · rw [applyWrites_getElem_mem _ _ n
      (seqPayoff prd mdl (mdl.init prd.timeline m0) rng antithetic
        (mcSimulRngStart prd mdl m0 rng s0) n) hnd
      (parallelWrites_mem prd mdl m0 rng s0 nPath antithetic hskip n hn)
      (by simp; omega)]
    rw [List.getElem?_map, List.getElem?_range hn]
    rfl
  · rw [List.getElem?_eq_none, List.getElem?_eq_none]
    · simp; omega
    · rw [applyWrites_length]; simp; omega

/-- Claim C2: with an exact functional skip-ahead, `mcParallelSimul`
returns the same pathwise payoff vector as `mcSimul`, element for
element, and the assembled vector is the same for every order in which
the worker pool could apply the batch writes. -/
theorem c2_parallel_matches_sequential (prd : Product) (mdl : Model M) (m0 : M)
    (rng : RNG σ) (s0 : σ) (nPath : ℕ) (antithetic : Bool)
    (hskip : ∀ (k : ℕ) (s : σ), rng.skipTo k s = advState rng s k) :
    (mcParallelSimul prd mdl m0 rng s0 nPath antithetic).res =
      (mcSimul prd mdl m0 rng s0 nPath antithetic).res ∧
    ∀ ws' : List (ℕ × ℚ),
      ws'.Perm (parallelWrites prd mdl m0 rng s0 nPath antithetic) →
        applyWrites ws' (List.replicate nPath 0) =
          (mcSimul prd mdl m0 rng s0 nPath antithetic).res := by
  constructor
  · rw [(mcParallelSimul_eq prd mdl m0 rng s0 nPath antithetic).1]
    exact parallel_assembled_eq prd mdl m0 rng s0 nPath antithetic hskip _
      (List.Perm.refl _)
  · intro ws' hperm
    exact parallel_assembled_eq prd mdl m0 rng s0 nPath antithetic hskip ws' hperm

/-- Counter-state RNG used by the concrete witnesses: draw number `k` is
the one-element Gaussian vector `[k]`, and `skipTo` adds to the counter
(an exact functional skip-ahead). -/
def natRNG : RNG ℕ :=
  ⟨fun _ s => s, fun s => ([(s : ℚ)], s + 1), fun k s => s + k⟩

/-- One-asset model used by the concrete witnesses: the spot at the single
event date is the first Gaussian of the vector. -/
def cstModel : Model (List Time) :=
  ⟨fun tl _ => tl, fun _ => 1, fun _ g => [⟨g.headD 0⟩]⟩

/-- Product used by the concrete witnesses: pays the spot at the single
event date. -/
def cstProduct : Product :=
  ⟨[1], fun p => (p.headD ⟨0⟩).spot⟩

lemma natRNG_advState (s k : ℕ) : advState natRNG s k = s + k := by
  induction k generalizing s with
  | zero => rfl
  | succ k ih =>
      rw [advState_succ]
      show advState natRNG (s + 1) k = s + (k + 1)
      rw [ih]
      omega

lemma natRNG_skipExact : ∀ (k s : ℕ), natRNG.skipTo k s = advState natRNG s k := by
  intro k s
  rw [natRNG_advState]
  rfl

set_option maxRecDepth 100000

/-- Witness for claim C2 at `nPath = 65`, `antithetic = true`, with the
exact-skip counter RNG; the final entry of the shared vector (path 64,
first path of the second batch) is draw number 32. -/
theorem c2_parallel_matches_sequential_witness :
    (∀ (k s : ℕ), natRNG.skipTo k s = advState natRNG s k) ∧
    (mcParallelSimul cstProduct cstModel [] natRNG 0 65 true).res =
      (mcSimul cstProduct cstModel [] natRNG 0 65 true).res ∧
    (mcSimul cstProduct cstModel [] natRNG 0 65 true).res.getD 64 0 = 32 ∧
    (mcSimul cstProduct cstModel [] natRNG 0 65 true).res.getD 3 0 = -1 := by
  refine ⟨natRNG_skipExact, ?_, by decide, by decide⟩
  exact (c2_parallel_matches_sequential cstProduct cstModel [] natRNG 0 65 true
    natRNG_skipExact).1

/-- Modelled from the spec: a tape node (spec sections 3 and 4.1;
`AADNumber.h` is not under `src/`).  A node stores, for each of its
inputs, the index of the input's node (standing for the reference to that
node's adjoint slot) together with the local partial derivative of the
node's result with respect to that input. -/
structure Node where
  inputs : List (ℕ × ℚ)
  deriving Repr, DecidableEq

/-- Modelled from the spec: the AAD tape (spec section 4.1): an
append-only list of nodes, one adjoint slot per node (`adj i` is the slot
of node `i`; slots of indexes never written are 0), and the saved mark
position. -/
structure Tape where
  nodes : List Node
  adj : ℕ → ℚ
  markPos : ℕ

/-- Modelled from the spec: `Tape::rewind()` releases all nodes and drops
the mark. -/
def Tape.rewind (_t : Tape) : Tape :=
  ⟨[], fun _ => 0, 0⟩

/-- Modelled from the spec: `Tape::mark()` records the current end as the
mark. -/
def Tape.mark (t : Tape) : Tape :=
  { t with markPos := t.nodes.length }

/-- Modelled from the spec: `Tape::rewindToMark()` releases all nodes
recorded after the mark; nodes up to the mark keep their adjoint values. -/
def Tape.rewindToMark (t : Tape) : Tape :=
  ⟨t.nodes.take t.markPos, fun i => if i < t.markPos then t.adj i else 0, t.markPos⟩

/-- Appending one node to the tape (every ActiveNumber operation records
one node whose fresh adjoint slot is 0, which the slot function already
gives for indexes at or beyond the current end). -/
def Tape.push (t : Tape) (nd : Node) : Tape :=
  { t with nodes := t.nodes ++ [nd] }

/-- Adjoint-slot accumulation `adjoint(input) += x`. -/
def bump (A : ℕ → ℚ) (i : ℕ) (x : ℚ) : ℕ → ℚ :=
  Function.update A i (A i + x)

/-- Backward visit of one node: read its adjoint, then accumulate
`adjoint(input) += partial * adjoint(node)` for each input. -/
def processNode (nodes : List Node) (A : ℕ → ℚ) (i : ℕ) : ℕ → ℚ :=
  (nodes.getD i ⟨[]⟩).inputs.foldl (fun B kp => bump B kp.1 (kp.2 * A i)) A

/-- Backward walk over a list of node indexes. -/
def walkIdx (nodes : List Node) (idxs : List ℕ) (A : ℕ → ℚ) : ℕ → ℚ :=
  idxs.foldl (processNode nodes) A

/-- Modelled from the spec: `Tape::propagateToMark(r, resetInput)` (spec
section 4.1): set the adjoint of the result node `r` to 1, then walk the
tape backward from `r` down to (but not past) the mark, accumulating
`adjoint(input) += partial * adjoint(output)`.  With `resetInput = true`
the pre-mark slots are reset to 0 first instead of accumulating (the
simulators only ever pass `false`). -/
def Tape.propagateToMark (t : Tape) (r : ℕ) (resetInput : Bool) : Tape :=
  let base : ℕ → ℚ :=
    if resetInput then (fun i => if i < t.markPos then 0 else t.adj i) else t.adj
  let seeded := Function.update base r 1
  let idxs := (List.range' t.markPos (r + 1 - t.markPos)).reverse
  { t with adj := walkIdx t.nodes idxs seeded }

/-- Modelled from the spec: `Tape::propagateMarkToStart()` walks from the
mark back to the start, with no fresh seeding. -/
def Tape.propagateMarkToStart (t : Tape) : Tape :=
  { t with adj := walkIdx t.nodes (List.range t.markPos).reverse t.adj }

/-- Modelled from the spec: an ActiveNumber (`Number` of `AADNumber.h`):
a value and the index of its node on the tape (standing for the reference
to its adjoint slot). -/
structure Number where
  val : ℚ
  idx : ℕ
  deriving Repr, DecidableEq

/-- Modelled from the spec: `Model<Number>::putOnTape()` registers the
`n` model parameters as leaf nodes (here nodes `0 .. n-1`, as the
simulators call it right after `tape.rewind()`), resetting their adjoint
slots to 0. -/
def Tape.putOnTape (t : Tape) (n : ℕ) : Tape :=
  ⟨t.nodes ++ List.replicate n ⟨[]⟩,
   fun i => if t.nodes.length ≤ i ∧ i < t.nodes.length + n then 0 else t.adj i,
   t.markPos⟩

/-- Modelled from the spec: the per-path computation of an AAD-enabled
model and product is built from ActiveNumber arithmetic (spec section
4.2).  The embedding represents such a computation as an expression over
the model's `n` parameters; `const` covers everything computed from the
plain-double Gaussian vector and the timeline, and the recorded operation
set (sums, products, negation) carries its analytic partials.  A bare
`param` leaf denotes reusing the parameter's own (pre-mark) node rather
than recording a new one, exactly as copying an ActiveNumber does. -/
inductive Expr (n : ℕ)
  | const : ℚ → Expr n
  | param : Fin n → Expr n
  | add : Expr n → Expr n → Expr n
  | mul : Expr n → Expr n → Expr n
  | neg : Expr n → Expr n
  deriving Repr, DecidableEq

variable {n : ℕ}

/-- Value of an expression at parameter values `v`. -/
def Expr.eval (v : Fin n → ℚ) : Expr n → ℚ
  | .const c => c
  | .param j => v j
  | .add a b => a.eval v + b.eval v
  | .mul a b => a.eval v * b.eval v
  | .neg a => -a.eval v

/-- Analytic partial derivative of an expression with respect to
parameter `j`, at parameter values `v`. -/
def Expr.pderiv (j : Fin n) (v : Fin n → ℚ) : Expr n → ℚ
  | .const _ => 0
  | .param i => if i = j then 1 else 0
  | .add a b => a.pderiv j v + b.pderiv j v
  | .mul a b => a.pderiv j v * b.eval v + a.eval v * b.pderiv j v
  | .neg a => -a.pderiv j v

/-- Whether the expression is a bare parameter leaf (its "result node" is
the parameter's own node, recorded before the mark). -/
def Expr.isParam : Expr n → Bool
  | .param _ => true
  | _ => false

/-- Number of tape nodes recorded for an expression. -/
def Expr.segLen : Expr n → ℕ
  | .const _ => 1
  | .param _ => 0
  | .add a b => a.segLen + b.segLen + 1
  | .mul a b => a.segLen + b.segLen + 1
  | .neg a => a.segLen + 1

/-- Modelled from the spec: evaluating an expression in ActiveNumber
arithmetic records its operations on the tape in postorder and returns
the resulting Number; a parameter leaf returns the parameter's Number
(node `j`) without recording, a constant records a leaf node, and each
arithmetic operation records one node holding its inputs' indexes and
partials. -/
def record (v : Fin n → ℚ) : Expr n → Tape → Tape × Number
  | .const c, t => (t.push ⟨[]⟩, ⟨c, t.nodes.length⟩)
  | .param j, t => (t, ⟨v j, (j : ℕ)⟩)
  | .add a b, t =>
      let ra := record v a t
      let rb := record v b ra.1
      (rb.1.push ⟨[(ra.2.idx, 1), (rb.2.idx, 1)]⟩,
       ⟨ra.2.val + rb.2.val, rb.1.nodes.length⟩)
  | .mul a b, t =>
      let ra := record v a t
      let rb := record v b ra.1
      (rb.1.push ⟨[(ra.2.idx, rb.2.val), (rb.2.idx, ra.2.val)]⟩,
       ⟨ra.2.val * rb.2.val, rb.1.nodes.length⟩)
  | .neg a, t =>
      let ra := record v a t
      (ra.1.push ⟨[(ra.2.idx, -1)]⟩, ⟨-ra.2.val, ra.1.nodes.length⟩)

lemma record_val (v : Fin n → ℚ) (e : Expr n) (t : Tape) :
    (record v e t).2.val = e.eval v := by
  induction e generalizing t with
  | const c => rfl
  | param j => rfl
  | add a b iha ihb => simp [record, Expr.eval, iha, ihb]
  | mul a b iha ihb => simp [record, Expr.eval, iha, ihb]
  | neg a iha => simp [record, Expr.eval, iha]

lemma record_nodes (v : Fin n → ℚ) (e : Expr n) (t : Tape) :
    ∃ seg : List Node, (record v e t).1.nodes = t.nodes ++ seg ∧
      seg.length = e.segLen := by
  induction e generalizing t with
  | const c => exact ⟨[⟨[]⟩], rfl, rfl⟩
  | param j => exact ⟨[], by simp [record], rfl⟩
  | add a b iha ihb =>
      obtain ⟨sa, ha, hla⟩ := iha t
      obtain ⟨sb, hb, hlb⟩ := ihb (record v a t).1
      refine ⟨sa ++ sb ++ [⟨[((record v a t).2.idx, 1), ((record v b (record v a t).1).2.idx, 1)]⟩],
        ?_, by simp [Expr.segLen, hla, hlb] <;> omega⟩
      show (record v b (record v a t).1).1.nodes ++ _ = _
      rw [hb, ha]
      simp
  | mul a b iha ihb =>
      obtain ⟨sa, ha, hla⟩ := iha t
      obtain ⟨sb, hb, hlb⟩ := ihb (record v a t).1
      refine ⟨sa ++ sb ++ [⟨[((record v a t).2.idx, (record v b (record v a t).1).2.val),
        ((record v b (record v a t).1).2.idx, (record v a t).2.val)]⟩],
        ?_, by simp [Expr.segLen, hla, hlb] <;> omega⟩
      show (record v b (record v a t).1).1.nodes ++ _ = _
      rw [hb, ha]
      simp
  | neg a iha =>
      obtain ⟨sa, ha, hla⟩ := iha t
      refine ⟨sa ++ [⟨[((record v a t).2.idx, -1)]⟩], ?_, by simp [Expr.segLen, hla]⟩
      show (record v a t).1.nodes ++ _ = _
      rw [ha]
      simp

lemma record_len (v : Fin n → ℚ) (e : Expr n) (t : Tape) :
    (record v e t).1.nodes.length = t.nodes.length + e.segLen := by
  obtain ⟨seg, hseg, hlen⟩ := record_nodes v e t
  rw [hseg, List.length_append, hlen]

lemma record_adj (v : Fin n → ℚ) (e : Expr n) (t : Tape) :
    (record v e t).1.adj = t.adj := by
  induction e generalizing t with
  | const c => rfl
  | param j => rfl
  | add a b iha ihb => show (record v b (record v a t).1).1.adj = _; rw [ihb, iha]
  | mul a b iha ihb => show (record v b (record v a t).1).1.adj = _; rw [ihb, iha]
  | neg a iha => show (record v a t).1.adj = _; rw [iha]

lemma record_markPos (v : Fin n → ℚ) (e : Expr n) (t : Tape) :
    (record v e t).1.markPos = t.markPos := by
  induction e generalizing t with
  | const c => rfl
  | param j => rfl
  | add a b iha ihb => show (record v b (record v a t).1).1.markPos = _; rw [ihb, iha]
  | mul a b iha ihb => show (record v b (record v a t).1).1.markPos = _; rw [ihb, iha]
  | neg a iha => show (record v a t).1.markPos = _; rw [iha]

lemma record_idx (v : Fin n → ℚ) (e : Expr n) (t : Tape) (h : e.isParam = false) :
    (record v e t).2.idx = (record v e t).1.nodes.length - 1 := by
  cases e with
  | const c => simp [record, Tape.push]
  | param j => simp [Expr.isParam] at h
  | add a b => simp [record, Tape.push]
  | mul a b => simp [record, Tape.push]
  | neg a => simp [record, Tape.push]

lemma bump_apply (A : ℕ → ℚ) (i : ℕ) (x : ℚ) (k : ℕ) :
    bump A i x k = if k = i then A i + x else A k := by
  simp [bump, Function.update_apply]

lemma bump_self (A : ℕ → ℚ) (i : ℕ) (x : ℚ) : bump A i x i = A i + x := by
  simp [bump_apply]

lemma bump_ne (A : ℕ → ℚ) (i : ℕ) (x : ℚ) (k : ℕ) (h : k ≠ i) :
    bump A i x k = A k := by
  simp [bump_apply, h]

lemma walkIdx_nil (nodes : List Node) (A : ℕ → ℚ) : walkIdx nodes [] A = A := rfl

lemma walkIdx_cons (nodes : List Node) (x : ℕ) (xs : List ℕ) (A : ℕ → ℚ) :
    walkIdx nodes (x :: xs) A = walkIdx nodes xs (processNode nodes A x) := rfl

lemma walkIdx_append (nodes : List Node) (l1 l2 : List ℕ) (A : ℕ → ℚ) :
    walkIdx nodes (l1 ++ l2) A = walkIdx nodes l2 (walkIdx nodes l1 A) := by
  simp [walkIdx, List.foldl_append]

lemma processNode_congr (nodes nodes' : List Node) (A : ℕ → ℚ) (i : ℕ)
    (h : nodes.getD i ⟨[]⟩ = nodes'.getD i ⟨[]⟩) :
    processNode nodes A i = processNode nodes' A i := by
  unfold processNode
  rw [h]

lemma walkIdx_congr (nodes nodes' : List Node) (idxs : List ℕ)
    (h : ∀ i ∈ idxs, nodes.getD i ⟨[]⟩ = nodes'.getD i ⟨[]⟩) :
    ∀ A : ℕ → ℚ, walkIdx nodes idxs A = walkIdx nodes' idxs A := by
  induction idxs with
  | nil => intro A; rfl
  | cons x xs ih =>
      intro A
      rw [walkIdx_cons, walkIdx_cons,
        processNode_congr nodes nodes' A x (h x (List.mem_cons_self x xs)),
        ih (fun i hi => h i (List.mem_cons_of_mem x hi))]

/-- Walking over leaf nodes (no inputs) leaves the adjoints unchanged. -/
lemma walkIdx_leaves (nodes : List Node) (idxs : List ℕ)
    (h : ∀ i ∈ idxs, (nodes.getD i ⟨[]⟩).inputs = []) :
    ∀ A : ℕ → ℚ, walkIdx nodes idxs A = A := by
  induction idxs with
  | nil => intro A; rfl
  | cons x xs ih =>
      intro A
      rw [walkIdx_cons]
      have hx : processNode nodes A x = A := by
        unfold processNode
        rw [h x (List.mem_cons_self x xs)]
        rfl
      rw [hx, ih (fun i hi => h i (List.mem_cons_of_mem x hi))]

lemma getD_append_left (l l' : List Node) (i : ℕ) (d : Node) (h : i < l.length) :
    (l ++ l').getD i d = l.getD i d := by
  simp [List.getD, List.getElem?_append_left h]

lemma getD_concat_self (l : List Node) (x d : Node) :
    (l ++ [x]).getD l.length d = x := by
  simp [List.getD]

/-- Case analysis of the index of a recorded expression's result: a bare
parameter leaf points below `n`, anything else points at the last node of
its freshly recorded segment. -/
lemma record_idx_cases (v : Fin n → ℚ) (e : Expr n) (t : Tape)
    (_hlen : n ≤ t.nodes.length) :
    ((record v e t).2.idx < n ∧ e.segLen = 0) ∨
    (t.nodes.length ≤ (record v e t).2.idx ∧
      (record v e t).2.idx + 1 = t.nodes.length + e.segLen) := by
  cases e with
  | param j => exact Or.inl ⟨j.isLt, rfl⟩
  | const c =>
      refine Or.inr ⟨le_refl _, ?_⟩
      simp [record, Expr.segLen]
  | add a b =>
      refine Or.inr ⟨?_, ?_⟩
      · show t.nodes.length ≤ (record v b (record v a t).1).1.nodes.length
        rw [record_len, record_len]
        omega
      · show (record v b (record v a t).1).1.nodes.length + 1 =
          t.nodes.length + (a.segLen + b.segLen + 1)
        rw [record_len, record_len]
        omega
  | mul a b =>
      refine Or.inr ⟨?_, ?_⟩
      · show t.nodes.length ≤ (record v b (record v a t).1).1.nodes.length
        rw [record_len, record_len]
        omega
      · show (record v b (record v a t).1).1.nodes.length + 1 =
          t.nodes.length + (a.segLen + b.segLen + 1)
        rw [record_len, record_len]
        omega
  | neg a =>
      refine Or.inr ⟨?_, ?_⟩
      · show t.nodes.length ≤ (record v a t).1.nodes.length
        rw [record_len]
        omega
      · show (record v a t).1.nodes.length + 1 = t.nodes.length + (a.segLen + 1)
        rw [record_len]
        omega

/-- Specification of the backward walk over a freshly recorded expression
segment: seeding the result's adjoint slot with `w` (by `bump`) and
walking the segment backward adds `w * ∂e/∂param_j` to every parameter
slot, and leaves every other slot outside the segment unchanged.  The
segment slots of `A` must be 0 when the walk starts (they are fresh). -/
def WalkSpec (v : Fin n → ℚ) (e : Expr n) : Prop :=
  ∀ t : Tape, n ≤ t.nodes.length →
    ∀ (A : ℕ → ℚ) (w : ℚ),
      (∀ i, t.nodes.length ≤ i → i < t.nodes.length + e.segLen → A i = 0) →
      (∀ j : Fin n,
        walkIdx (record v e t).1.nodes
          ((List.range' t.nodes.length e.segLen).reverse)
          (bump A (record v e t).2.idx w) (j : ℕ) =
        A (j : ℕ) + w * e.pderiv j v) ∧
      (∀ i : ℕ, n ≤ i → (i < t.nodes.length ∨ t.nodes.length + e.segLen ≤ i) →
        walkIdx (record v e t).1.nodes
          ((List.range' t.nodes.length e.segLen).reverse)
          (bump A (record v e t).2.idx w) i = A i)

lemma revRange_split (L la lb : ℕ) :
    (List.range' L (la + lb + 1)).reverse =
      (L + la + lb) :: ((List.range' (L + la) lb).reverse ++
        (List.range' L la).reverse) := by
  have h1 : List.range' L (la + lb + 1) =
      (List.range' L la ++ List.range' (L + la) lb) ++ [L + la + lb] := by
    rw [List.range'_append_1 L la lb]
    have h2 : [L + la + lb] = List.range' (L + (lb + la)) 1 := by
      rw [List.range'_one]
      simp only [List.cons.injEq, and_true]
      omega
    rw [h2, List.range'_append_1 L (lb + la) 1]
    have h3 : la + lb + 1 = 1 + (lb + la) := by omega
    rw [h3]
  rw [h1, List.reverse_append, List.reverse_append, List.reverse_singleton,
    List.singleton_append]

/-- Backward-walk correctness for a binary operation node with partials
`pa`, `pb`: processing the top node distributes the seed to both operand
results, and the operand walks (by the operand `WalkSpec`s) push it on to
the parameter slots. -/
lemma walk_binary (v : Fin n → ℚ) (a b : Expr n) (pa pb : ℚ)
    (hwa : WalkSpec v a) (hwb : WalkSpec v b)
    (t : Tape) (hlen : n ≤ t.nodes.length) (A : ℕ → ℚ) (w : ℚ)
    (hz : ∀ i, t.nodes.length ≤ i →
      i < t.nodes.length + (a.segLen + b.segLen + 1) → A i = 0) :
    (∀ j : Fin n,
      walkIdx ((record v b (record v a t).1).1.push
          ⟨[((record v a t).2.idx, pa), ((record v b (record v a t).1).2.idx, pb)]⟩).nodes
        ((List.range' t.nodes.length (a.segLen + b.segLen + 1)).reverse)
        (bump A (record v b (record v a t).1).1.nodes.length w) (j : ℕ) =
      A (j : ℕ) + w * (pa * a.pderiv j v + pb * b.pderiv j v)) ∧
    (∀ i : ℕ, n ≤ i →
      (i < t.nodes.length ∨ t.nodes.length + (a.segLen + b.segLen + 1) ≤ i) →
      walkIdx ((record v b (record v a t).1).1.push
          ⟨[((record v a t).2.idx, pa), ((record v b (record v a t).1).2.idx, pb)]⟩).nodes
        ((List.range' t.nodes.length (a.segLen + b.segLen + 1)).reverse)
        (bump A (record v b (record v a t).1).1.nodes.length w) i = A i) := by
  have hLa := record_len v a t
  have hLb := record_len v b (record v a t).1
  have hlenA : n ≤ (record v a t).1.nodes.length := by omega
  have hna_cases := record_idx_cases v a t hlen
  have hnb_cases := record_idx_cases v b (record v a t).1 hlenA
  have hna_lt : (record v a t).2.idx < (record v a t).1.nodes.length := by
    rcases hna_cases with ⟨h1, _⟩ | ⟨h1, h2⟩ <;> omega
  have hnb_lt : (record v b (record v a t).1).2.idx <
      (record v b (record v a t).1).1.nodes.length := by
    rcases hnb_cases with ⟨h1, _⟩ | ⟨h1, h2⟩ <;> omega
  obtain ⟨sb, hsb, hsbl⟩ := record_nodes v b (record v a t).1
  -- decompose the walked index list
  have hr : t.nodes.length + a.segLen + b.segLen =
      (record v b (record v a t).1).1.nodes.length := by omega
  have hm : t.nodes.length + a.segLen = (record v a t).1.nodes.length := hLa.symm
  rw [revRange_split t.nodes.length a.segLen b.segLen, hr, hm]
  rw [walkIdx_cons]
  -- process the top node
  have hgetTop : (((record v b (record v a t).1).1.push
      ⟨[((record v a t).2.idx, pa), ((record v b (record v a t).1).2.idx, pb)]⟩).nodes).getD
      (record v b (record v a t).1).1.nodes.length ⟨[]⟩ =
      ⟨[((record v a t).2.idx, pa), ((record v b (record v a t).1).2.idx, pb)]⟩ :=
    getD_concat_self _ _ _
  have hAr : (bump A (record v b (record v a t).1).1.nodes.length w)
      (record v b (record v a t).1).1.nodes.length = w := by
    rw [bump_self, hz _ (by omega) (by omega), zero_add]
  have hproc : processNode ((record v b (record v a t).1).1.push
      ⟨[((record v a t).2.idx, pa), ((record v b (record v a t).1).2.idx, pb)]⟩).nodes
      (bump A (record v b (record v a t).1).1.nodes.length w)
      (record v b (record v a t).1).1.nodes.length =
      bump (bump (bump A (record v b (record v a t).1).1.nodes.length w)
        ((record v a t).2.idx) (pa * w))
        ((record v b (record v a t).1).2.idx) (pb * w) := by
    unfold processNode
    rw [hgetTop]
    simp only [List.foldl_cons, List.foldl_nil]
    rw [hAr]
  rw [hproc, walkIdx_append]
  -- the inner walk only visits the b-segment, where the pushed node is invisible
  have hcongrB := walkIdx_congr
    ((record v b (record v a t).1).1.push
      ⟨[((record v a t).2.idx, pa), ((record v b (record v a t).1).2.idx, pb)]⟩).nodes
    (record v b (record v a t).1).1.nodes
    ((List.range' (record v a t).1.nodes.length b.segLen).reverse)
    (by
      intro i hi
      rw [List.mem_reverse, List.mem_range'_1] at hi
      exact getD_append_left _ _ _ _ (by omega))
  rw [hcongrB]
  -- apply the b walk
  have hzb : ∀ i, (record v a t).1.nodes.length ≤ i →
      i < (record v a t).1.nodes.length + b.segLen →
      (bump (bump A (record v b (record v a t).1).1.nodes.length w)
        ((record v a t).2.idx) (pa * w)) i = 0 := by
    intro i h1 h2
    rw [bump_ne _ _ _ _ (by omega), bump_ne _ _ _ _ (by omega)]
    exact hz i (by omega) (by omega)
  obtain ⟨c1b, c2b⟩ := hwb (record v a t).1 hlenA
    (bump (bump A (record v b (record v a t).1).1.nodes.length w)
      ((record v a t).2.idx) (pa * w)) (pb * w) hzb
  -- the outer walk only visits the a-segment
  have hcongrA := walkIdx_congr
    ((record v b (record v a t).1).1.push
      ⟨[((record v a t).2.idx, pa), ((record v b (record v a t).1).2.idx, pb)]⟩).nodes
    (record v a t).1.nodes
    ((List.range' t.nodes.length a.segLen).reverse)
    (by
      intro i hi
      rw [List.mem_reverse, List.mem_range'_1] at hi
      show (((record v b (record v a t).1).1.nodes ++ _).getD i _) = _
      rw [hsb, List.append_assoc]
      exact getD_append_left _ _ _ _ (by omega))
  rw [hcongrA]
  -- rewrite the seed of the a-walk in bump form
  set W2 := walkIdx (record v b (record v a t).1).1.nodes
    ((List.range' (record v a t).1.nodes.length b.segLen).reverse)
    (bump (bump (bump A (record v b (record v a t).1).1.nodes.length w)
      ((record v a t).2.idx) (pa * w))
      ((record v b (record v a t).1).2.idx) (pb * w)) with hW2def
  set A2 := Function.update W2 ((record v a t).2.idx)
    (W2 ((record v a t).2.idx) - pa * w) with hA2def
  have hW2eq : W2 = bump A2 ((record v a t).2.idx) (pa * w) := by
    funext k
    rcases eq_or_ne k ((record v a t).2.idx) with hk | hk
    · rw [hk, bump_self, hA2def, Function.update_same]
      ring
    · rw [bump_ne _ _ _ _ hk, hA2def, Function.update_noteq hk]
  -- parameter slots of the intermediate array
  have hW2j : ∀ j : Fin n, W2 (j : ℕ) =
      A (j : ℕ) + (if (j : ℕ) = (record v a t).2.idx then pa * w else 0) +
        pb * w * b.pderiv j v := by
    intro j
    have hjr : (j : ℕ) ≠ (record v b (record v a t).1).1.nodes.length := by
      have := j.isLt; omega
    rw [c1b j]
    rcases eq_or_ne ((j : ℕ)) ((record v a t).2.idx) with hk | hk
    · rw [if_pos hk, hk, bump_self, bump_ne _ _ _ _ (by omega)]
    · rw [if_neg hk, bump_ne _ _ _ _ hk, bump_ne _ _ _ _ hjr]
      ring
  have hA2param : ∀ j : Fin n, A2 (j : ℕ) = A (j : ℕ) + pb * w * b.pderiv j v := by
    intro j
    rw [hA2def, Function.update_apply]
    split
    · next hk =>
        rw [← hk, hW2j j, if_pos hk]
        ring
    · next hk =>
        rw [hW2j j, if_neg hk]
        ring
  -- fresh-slot hypothesis for the a walk
  have hza : ∀ i, t.nodes.length ≤ i → i < t.nodes.length + a.segLen → A2 i = 0 := by
    intro i h1 h2
    rcases eq_or_ne i ((record v a t).2.idx) with hk | hk
    · have hge : n ≤ (record v a t).2.idx := by
        rcases hna_cases with ⟨h3, _⟩ | ⟨h3, _⟩ <;> omega
      rw [hA2def, hk, Function.update_same]
      rw [c2b ((record v a t).2.idx) hge (Or.inl hna_lt)]
      rw [bump_self, bump_ne _ _ _ _ (by omega),
        hz ((record v a t).2.idx) (by omega) (by omega)]
      ring
    · rw [hA2def, Function.update_noteq hk]
      rw [c2b i (by omega) (Or.inl (by omega))]
      rw [bump_ne _ _ _ _ hk, bump_ne _ _ _ _ (by omega)]
      exact hz i (by omega) (by omega)
  obtain ⟨c1a, c2a⟩ := hwa t hlen A2 (pa * w) hza
  rw [hW2eq]
  constructor
  · intro j
    rw [c1a j, hA2param j]
    ring
  · intro i hi hout
    have hkne : i ≠ (record v a t).2.idx := by
      rcases hna_cases with ⟨h3, _⟩ | ⟨h3, h4⟩ <;> omega
    rw [c2a i hi (by omega)]
    rw [hA2def, Function.update_noteq hkne]
    rw [c2b i hi (by omega)]
    rw [bump_ne _ _ _ _ hkne, bump_ne _ _ _ _ (by omega)]

/-- Backward-walk correctness for a unary operation node with partial
`pa`. -/
lemma walk_unary (v : Fin n → ℚ) (a : Expr n) (pa : ℚ) (hwa : WalkSpec v a)
    (t : Tape) (hlen : n ≤ t.nodes.length) (A : ℕ → ℚ) (w : ℚ)
    (hz : ∀ i, t.nodes.length ≤ i → i < t.nodes.length + (a.segLen + 1) → A i = 0) :
    (∀ j : Fin n,
      walkIdx ((record v a t).1.push ⟨[((record v a t).2.idx, pa)]⟩).nodes
        ((List.range' t.nodes.length (a.segLen + 1)).reverse)
        (bump A (record v a t).1.nodes.length w) (j : ℕ) =
      A (j : ℕ) + w * (pa * a.pderiv j v)) ∧
    (∀ i : ℕ, n ≤ i →
      (i < t.nodes.length ∨ t.nodes.length + (a.segLen + 1) ≤ i) →
      walkIdx ((record v a t).1.push ⟨[((record v a t).2.idx, pa)]⟩).nodes
        ((List.range' t.nodes.length (a.segLen + 1)).reverse)
        (bump A (record v a t).1.nodes.length w) i = A i) := by
  have hLa := record_len v a t
  have hna_cases := record_idx_cases v a t hlen
  have hna_lt : (record v a t).2.idx < (record v a t).1.nodes.length := by
    rcases hna_cases with ⟨h1, _⟩ | ⟨h1, h2⟩ <;> omega
  have hsplit := revRange_split t.nodes.length a.segLen 0
  rw [show a.segLen + 0 + 1 = a.segLen + 1 from by omega] at hsplit
  rw [hsplit]
  rw [show (List.range' (t.nodes.length + a.segLen) 0).reverse = [] from rfl,
    List.nil_append]
  have hr : t.nodes.length + a.segLen + 0 = (record v a t).1.nodes.length := by omega
  rw [hr, walkIdx_cons]
  have hgetTop : (((record v a t).1.push ⟨[((record v a t).2.idx, pa)]⟩).nodes).getD
      (record v a t).1.nodes.length ⟨[]⟩ = ⟨[((record v a t).2.idx, pa)]⟩ :=
    getD_concat_self _ _ _
  have hAr : (bump A (record v a t).1.nodes.length w)
      (record v a t).1.nodes.length = w := by
    rw [bump_self, hz _ (by omega) (by omega), zero_add]
  have hproc : processNode ((record v a t).1.push ⟨[((record v a t).2.idx, pa)]⟩).nodes
      (bump A (record v a t).1.nodes.length w) (record v a t).1.nodes.length =
      bump (bump A (record v a t).1.nodes.length w) ((record v a t).2.idx) (pa * w) := by
    unfold processNode
    rw [hgetTop]
    simp only [List.foldl_cons, List.foldl_nil]
    rw [hAr]
  rw [hproc]
  have hcongrA := walkIdx_congr
    ((record v a t).1.push ⟨[((record v a t).2.idx, pa)]⟩).nodes
    (record v a t).1.nodes
    ((List.range' t.nodes.length a.segLen).reverse)
    (by
      intro i hi
      rw [List.mem_reverse, List.mem_range'_1] at hi
      exact getD_append_left _ _ _ _ (by omega))
  rw [hcongrA]
  have hza : ∀ i, t.nodes.length ≤ i → i < t.nodes.length + a.segLen →
      (bump A (record v a t).1.nodes.length w) i = 0 := by
    intro i h1 h2
    rw [bump_ne _ _ _ _ (by omega)]
    exact hz i (by omega) (by omega)
  obtain ⟨c1a, c2a⟩ := hwa t hlen (bump A (record v a t).1.nodes.length w) (pa * w) hza
  constructor
  · intro j
    rw [c1a j, bump_ne _ _ _ _ (by have := j.isLt; omega)]
    ring
  · intro i hi hout
    rw [c2a i hi (by omega)]
    rw [bump_ne _ _ _ _ (by omega)]

/-- Correctness of one reverse propagation over a freshly recorded
expression: seeding the result with `w` and walking the segment backward
adds exactly `w` times the analytic partial to each parameter slot and
leaves all other pre-existing slots unchanged. -/
lemma record_walk (v : Fin n → ℚ) (e : Expr n) : WalkSpec v e := by
  induction e with
  | const c =>
      intro t hlen A w hz
      have hget : ((t.push (⟨[]⟩ : Node)).nodes).getD t.nodes.length ⟨[]⟩ =
          (⟨[]⟩ : Node) := getD_concat_self _ _ _
      have hwalk : walkIdx (t.push (⟨[]⟩ : Node)).nodes
          ((List.range' t.nodes.length 1).reverse) (bump A t.nodes.length w) =
          bump A t.nodes.length w := by
        rw [List.range'_one, List.reverse_singleton]
        show processNode _ _ _ = _
        unfold processNode
        rw [hget]
        rfl
      constructor
      · intro j
        show walkIdx (t.push ⟨[]⟩).nodes ((List.range' t.nodes.length 1).reverse)
          (bump A t.nodes.length w) (j : ℕ) =
          A (j : ℕ) + w * Expr.pderiv j v (Expr.const c)
        rw [hwalk, bump_ne _ _ _ _ (by have := j.isLt; omega)]
        simp [Expr.pderiv]
      · intro i hi hout
        have hout' : i < t.nodes.length ∨ t.nodes.length + 1 ≤ i := by
          simpa [Expr.segLen] using hout
        show walkIdx (t.push ⟨[]⟩).nodes ((List.range' t.nodes.length 1).reverse)
          (bump A t.nodes.length w) i = A i
        rw [hwalk, bump_ne _ _ _ _ (by omega)]
  | param j' =>
      intro t hlen A w hz
      constructor
      · intro j
        show bump A (j' : ℕ) w (j : ℕ) = _
        rcases eq_or_ne (j : ℕ) (j' : ℕ) with hk | hk
        · have : j' = j := Fin.ext hk.symm
          subst this
          rw [bump_self]
          simp [Expr.pderiv]
        · rw [bump_ne _ _ _ _ hk]
          have : ¬ j' = j := fun h => hk (by rw [h])
          simp [Expr.pderiv, this]
      · intro i hi _
        show bump A (j' : ℕ) w i = _
        rw [bump_ne _ _ _ _ (by have := j'.isLt; omega)]
  | add a b iha ihb =>
      intro t hlen A w hz
      obtain ⟨h1, h2⟩ := walk_binary v a b 1 1 iha ihb t hlen A w hz
      constructor
      · intro j
        exact (h1 j).trans (by simp only [Expr.pderiv]; ring)
      · intro i hi hout
        exact h2 i hi hout
  | mul a b iha ihb =>
      intro t hlen A w hz
      obtain ⟨h1, h2⟩ := walk_binary v a b
        ((record v b (record v a t).1).2.val) ((record v a t).2.val)
        iha ihb t hlen A w hz
      constructor
      · intro j
        refine (h1 j).trans ?_
        rw [record_val v a t, record_val v b (record v a t).1]
        simp only [Expr.pderiv]
        ring
      · intro i hi hout
        exact h2 i hi hout
  | neg a iha =>
      intro t hlen A w hz
      obtain ⟨h1, h2⟩ := walk_unary v a (-1) iha t hlen A w hz
      constructor
      · intro j
        refine (h1 j).trans ?_
        simp only [Expr.pderiv]
        ring
      · intro i hi hout
        exact h2 i hi hout

/-- Observable events of the AAD simulators, used to state the call-order
claims: tape lifecycle calls, model setup calls, Gaussian generation
(fresh draw vs. elementwise negation), path generation, payoff evaluation
into a result slot, and the two propagation calls (with the identifier of
the tape that is current, 0 being the main thread's tape). -/
inductive Ev
  | rewind
  | putOnTape
  | initModel
  | markTape
  | rewindToMark
  | nextGEv
  | negateG
  | genPath
  | payoffEval (i : ℕ)
  | propToMark (reset : Bool)
  | propMarkToStart (tapeId : ℕ)
  | setTape (tapeId : ℕ)
  deriving Repr, DecidableEq

/-- Modelled from the spec: an AAD-enabled model (`Model<Number>`): `n`
parameter values, the MC dimension, and `generatePath`, mapping the
cached timeline and a plain-double Gaussian vector to the path of spot
expressions over the parameters.  `init` caches the timeline; the
pre-calculations of `init` are modelled as recording no tape nodes (the
abstract `Model` interface of `mcBase.h` does not fix what `init`
records), so the mark sits right after the `n` parameter nodes. -/
structure ModelAAD (n : ℕ) where
  paramVals : Fin n → ℚ
  simDim : ℕ
  generatePath : List Time → List ℚ → List (Expr n)

/-- Modelled from the spec: an AAD-enabled product (`Product<Number>`):
the timeline and the payoff, an ActiveNumber computation over the path
spots, hence an expression composition.  Composing expressions re-records
shared spot subtrees per use; the resulting adjoints are identical by
linearity of reverse propagation. -/
structure ProductAAD (n : ℕ) where
  timeline : List Time
  payoff : List (Expr n) → Expr n

/-- Mutable state of the per-path loop of `mcSimulAAD` (`mcBase.h`, lines
283-322); the original RNG argument is threaded through as `origR`. -/
structure AADLoopSt (σ : Type) where
  origR : σ
  tape : Tape
  rngS : σ
  gaussVec : List ℚ
  antiPath : Bool

/-- One iteration of the per-path loop of `mcSimulAAD` (`mcBase.h`, lines
285-322), and of a `mcParallelSimulAAD` batch (lines 478-513): rewind the
tape to the mark, obtain the Gaussian vector per the antithetic rule,
generate the path, evaluate the payoff into the result at absolute index
`idx` (recording its operations on the tape), and propagate its adjoint
back to the mark with `reset = false`. -/
def aadPathIter (prd : ProductAAD n) (mdl : ModelAAD n) (tl : List Time)
    (rng : RNG σ) (antithetic : Bool) (idx : ℕ) (st : AADLoopSt σ) :
    AADLoopSt σ × Number × List Ev :=
  let t1 := st.tape.rewindToMark
  let step := antitheticStep rng antithetic st.rngS st.gaussVec st.antiPath
  let gaussEv := if antithetic && st.antiPath then [Ev.negateG] else [Ev.nextGEv]
  let path := mdl.generatePath tl step.2.1
  let rec1 := record mdl.paramVals (prd.payoff path) t1
  let t2 := rec1.1.propagateToMark rec1.2.idx false
  (⟨st.origR, t2, step.1, step.2.1, step.2.2⟩, rec1.2,
   [Ev.rewindToMark] ++ gaussEv ++
     [Ev.genPath, Ev.payoffEval idx, Ev.propToMark false])

/-- The per-path loop of `mcSimulAAD`, iterating absolute path indexes
`idx0, idx0 + 1, …` over the remaining count; returns the final state,
the list of pathwise result Numbers (`res`), and the event trace. -/
def mcSimulAADLoop (prd : ProductAAD n) (mdl : ModelAAD n) (tl : List Time)
    (rng : RNG σ) (antithetic : Bool) :
    ℕ → ℕ → AADLoopSt σ → AADLoopSt σ × List Number × List Ev
  | _, 0, st => (st, [], [])
  | idx0, c + 1, st =>
      let one := aadPathIter prd mdl tl rng antithetic idx0 st
      let rest := mcSimulAADLoop prd mdl tl rng antithetic (idx0 + 1) c one.1
      (rest.1, one.2.1 :: rest.2.1, one.2.2 ++ rest.2.2)

/-- Result of the instrumented `mcSimulAAD`: the pathwise payoffs, the
returned model clone, the tape holding the parameters' accumulated
adjoints (slots `0 .. n-1`), the untouched original RNG state, and the
event trace. -/
structure AADOut (n : ℕ) (σ : Type) where
  payoffs : List ℚ
  model : ModelAAD n
  tape : Tape
  origR : σ
  trace : List Ev

/-- Embedding of `mcSimulAAD` (`mcBase.h`, lines 247-342): clone the
model and RNG; rewind the current tape, put the parameters on tape, init
the model clone with the product timeline, mark the tape; init the RNG
and allocate the buffers; run the per-path loop; propagate from the mark
to the start; convert the pathwise Numbers and return them with the model
clone. -/
def mcSimulAAD (prd : ProductAAD n) (mdl : ModelAAD n) (rng : RNG σ) (s0 : σ)
    (nPath : ℕ) (antithetic : Bool) (tIn : Tape) : AADOut n σ :=
  let t1 := tIn.rewind
  let t2 := t1.putOnTape n
  let t3 := t2.mark
  let s1 := rng.init mdl.simDim s0
  let loop := mcSimulAADLoop prd mdl prd.timeline rng antithetic 0 nPath
    ⟨s0, t3, s1, List.replicate mdl.simDim 0, false⟩
  let t4 := loop.1.tape.propagateMarkToStart
  ⟨loop.2.1.map (fun nb => nb.val), mdl, t4, loop.1.origR,
   [Ev.rewind, Ev.putOnTape, Ev.initModel, Ev.markTape] ++ loop.2.2 ++
     [Ev.propMarkToStart 0]⟩

/-- Embedding of `initSimul` (`mcBase.h`, lines 345-388): clone the model
and RNG; rewind the current tape, put the parameters on tape, init the
model clone (timeline caching), mark the tape; init the RNG clone and
size the buffers.  Returns the set-up tape, the RNG clone state and the
trace. -/
def initSimul (prd : ProductAAD n) (mdl : ModelAAD n) (rng : RNG σ) (s0 : σ)
    (tIn : Tape) : Tape × σ × List Ev :=
  let t1 := tIn.rewind
  let t2 := t1.putOnTape n
  let t3 := t2.mark
  (t3, rng.init mdl.simDim s0,
   [Ev.rewind, Ev.putOnTape, Ev.initModel, Ev.markTape])

lemma setupTape_markPos (tIn : Tape) :
    (((tIn.rewind.putOnTape n).mark)).markPos = n := by
  simp [Tape.rewind, Tape.putOnTape, Tape.mark]

lemma setupTape_len (tIn : Tape) :
    (((tIn.rewind.putOnTape n).mark)).nodes.length = n := by
  simp [Tape.rewind, Tape.putOnTape, Tape.mark]

lemma setupTape_leaf (tIn : Tape) (i : ℕ) (hi : i < n) :
    (((tIn.rewind.putOnTape n).mark)).nodes.getD i ⟨[]⟩ = ⟨[]⟩ := by
  show (([] ++ List.replicate n (⟨[]⟩ : Node)).getD i ⟨[]⟩) = _
  simp [List.getD, List.getElem?_replicate, hi]

lemma setupTape_adj (tIn : Tape) (i : ℕ) :
    (((tIn.rewind.putOnTape n).mark)).adj i = 0 := by
  show (if ([] : List Node).length ≤ i ∧ i < ([] : List Node).length + n
    then 0 else (fun _ => (0 : ℚ)) i) = 0
  split <;> rfl

/-- Toggle value right before entry `k` of a loop started with toggle `ap`
(the value that decides whether entry `k` negates the buffer). -/
def expBefore (antithetic ap : Bool) (k : ℕ) : Bool :=
  if k = 0 then ap else expAfter antithetic ap (k - 1)

lemma expBefore_zero (antithetic ap : Bool) : expBefore antithetic ap 0 = ap := rfl

lemma expBefore_shift_nonanti (ap : Bool) (k : ℕ) :
    expBefore false ap k = expBefore false ap (k + 1) := by
  simp [expBefore, expAfter]

lemma expBefore_shift_primary (k : ℕ) :
    expBefore true true k = expBefore true false (k + 1) := by
  rcases k with _ | j
  · simp [expBefore, expAfter]
  · show expAfter true true j = expAfter true false (j + 1)
    exact expAfter_shift_primary j

lemma expBefore_shift_anti (k : ℕ) :
    expBefore true false k = expBefore true true (k + 1) := by
  rcases k with _ | j
  · simp [expBefore, expAfter]
  · show expAfter true false j = expAfter true true (j + 1)
    exact expAfter_shift_anti j

/-- Event block of one iteration of the AAD per-path loop: rewind to the
mark, obtain the Gaussian vector (negation iff the toggle is set under
antithetic sampling), generate the path, evaluate the payoff into
absolute index `i`, propagate it back to the mark without resetting. -/
def aadBlock (antithetic before : Bool) (i : ℕ) : List Ev :=
  [Ev.rewindToMark] ++
    (if antithetic && before then [Ev.negateG] else [Ev.nextGEv]) ++
    [Ev.genPath, Ev.payoffEval i, Ev.propToMark false]

lemma antitheticStep_gauss0 (rng : RNG σ) (antithetic : Bool) (s : σ)
    (gv : List ℚ) (ap : Bool) :
    (antitheticStep rng antithetic s gv ap).2.1 = expGauss rng antithetic s gv ap 0 := by
  cases antithetic <;> cases ap <;>
    simp [antitheticStep, expGauss, gaussAt, drawAt, advState, negVec]

lemma update_one_eq_bump (A : ℕ → ℚ) (r : ℕ) (h : A r = 0) :
    Function.update A r 1 = bump A r 1 := by
  unfold bump
  rw [h, zero_add]

lemma Expr.segLen_pos (e : Expr n) (h : e.isParam = false) : 1 ≤ e.segLen := by
  cases e with
  | param j => simp [Expr.isParam] at h
  | const c => simp [Expr.segLen]
  | add a b => simp [Expr.segLen]
  | mul a b => simp [Expr.segLen]
  | neg a => simp [Expr.segLen]

lemma getD_take (l : List Node) (m i : ℕ) (d : Node) (h : i < m) :
    (l.take m).getD i d = l.getD i d := by
  simp [List.getD, List.getElem?_take, h]

lemma propagateToMark_false (t : Tape) (r : ℕ) :
    t.propagateToMark r false =
      ⟨t.nodes,
       walkIdx t.nodes ((List.range' t.markPos (r + 1 - t.markPos)).reverse)
         (Function.update t.adj r 1),
       t.markPos⟩ := rfl

lemma aadPathIter_eq (prd : ProductAAD n) (mdl : ModelAAD n) (tl : List Time)
    (rng : RNG σ) (antithetic : Bool) (idx : ℕ) (st : AADLoopSt σ) :
    aadPathIter prd mdl tl rng antithetic idx st =
      (⟨st.origR,
        ((record mdl.paramVals
          (prd.payoff (mdl.generatePath tl
            (antitheticStep rng antithetic st.rngS st.gaussVec st.antiPath).2.1))
          st.tape.rewindToMark).1).propagateToMark
          ((record mdl.paramVals
            (prd.payoff (mdl.generatePath tl
              (antitheticStep rng antithetic st.rngS st.gaussVec st.antiPath).2.1))
            st.tape.rewindToMark).2).idx false,
        (antitheticStep rng antithetic st.rngS st.gaussVec st.antiPath).1,
        (antitheticStep rng antithetic st.rngS st.gaussVec st.antiPath).2.1,
        (antitheticStep rng antithetic st.rngS st.gaussVec st.antiPath).2.2⟩,
       (record mdl.paramVals
         (prd.payoff (mdl.generatePath tl
           (antitheticStep rng antithetic st.rngS st.gaussVec st.antiPath).2.1))
         st.tape.rewindToMark).2,
       aadBlock antithetic st.antiPath idx) := rfl

/-- Everything one iteration of the AAD per-path loop does: it preserves
the threaded original RNG, advances the RNG/buffer/toggle by the
antithetic step, produces the Number of the payoff with its evaluated
value, emits one event block, preserves the tape invariants (mark at `n`,
at least `n` nodes, parameter leaf prefix), and — when the recorded
payoff is not a bare parameter — adds the payoff's partial derivative to
each parameter's adjoint slot. -/
lemma aadPathIter_spec (prd : ProductAAD n) (mdl : ModelAAD n) (tl : List Time)
    (rng : RNG σ) (antithetic : Bool) (idx : ℕ) (st : AADLoopSt σ)
    (hmk : st.tape.markPos = n) (hnl : n ≤ st.tape.nodes.length)
    (hlf : ∀ i, i < n → st.tape.nodes.getD i ⟨[]⟩ = ⟨[]⟩) :
    (aadPathIter prd mdl tl rng antithetic idx st).1.origR = st.origR ∧
    (aadPathIter prd mdl tl rng antithetic idx st).1.rngS =
      (antitheticStep rng antithetic st.rngS st.gaussVec st.antiPath).1 ∧
    (aadPathIter prd mdl tl rng antithetic idx st).1.gaussVec =
      (antitheticStep rng antithetic st.rngS st.gaussVec st.antiPath).2.1 ∧
    (aadPathIter prd mdl tl rng antithetic idx st).1.antiPath =
      (antitheticStep rng antithetic st.rngS st.gaussVec st.antiPath).2.2 ∧
    (aadPathIter prd mdl tl rng antithetic idx st).2.1.val =
      (prd.payoff (mdl.generatePath tl
        (antitheticStep rng antithetic st.rngS st.gaussVec st.antiPath).2.1)).eval
        mdl.paramVals ∧
    (aadPathIter prd mdl tl rng antithetic idx st).2.2 =
      aadBlock antithetic st.antiPath idx ∧
    (aadPathIter prd mdl tl rng antithetic idx st).1.tape.markPos = n ∧
    n ≤ (aadPathIter prd mdl tl rng antithetic idx st).1.tape.nodes.length ∧
    (∀ i, i < n →
      (aadPathIter prd mdl tl rng antithetic idx st).1.tape.nodes.getD i ⟨[]⟩ = ⟨[]⟩) ∧
    ((prd.payoff (mdl.generatePath tl
        (antitheticStep rng antithetic st.rngS st.gaussVec st.antiPath).2.1)).isParam =
          false →
      ∀ j : Fin n,
        (aadPathIter prd mdl tl rng antithetic idx st).1.tape.adj (j : ℕ) =
          st.tape.adj (j : ℕ) +
            Expr.pderiv j mdl.paramVals
              (prd.payoff (mdl.generatePath tl
                (antitheticStep rng antithetic st.rngS st.gaussVec st.antiPath).2.1))) := by
  rw [aadPathIter_eq]
  set e : Expr n := prd.payoff (mdl.generatePath tl
    (antitheticStep rng antithetic st.rngS st.gaussVec st.antiPath).2.1) with he
  set t1 : Tape := st.tape.rewindToMark with ht1
  have ht1mk : t1.markPos = n := by rw [ht1]; simp [Tape.rewindToMark, hmk]
  have ht1len : t1.nodes.length = n := by
    rw [ht1]
    simp only [Tape.rewindToMark, List.length_take, hmk]
    omega
  have ht1lf : ∀ i, i < n → t1.nodes.getD i ⟨[]⟩ = ⟨[]⟩ := by
    intro i hi
    rw [ht1]
    show (st.tape.nodes.take st.tape.markPos).getD i ⟨[]⟩ = ⟨[]⟩
    rw [hmk, getD_take st.tape.nodes n i ⟨[]⟩ hi]
    exact hlf i hi
  have ht1adj_lt : ∀ i, i < n → t1.adj i = st.tape.adj i := by
    intro i hi
    rw [ht1]
    show (if i < st.tape.markPos then st.tape.adj i else 0) = st.tape.adj i
    rw [hmk, if_pos hi]
  have ht1adj_ge : ∀ i, n ≤ i → t1.adj i = 0 := by
    intro i hi
    rw [ht1]
    show (if i < st.tape.markPos then st.tape.adj i else 0) = 0
    rw [hmk, if_neg (by omega)]
  have hrecmk : (record mdl.paramVals e t1).1.markPos = n := by
    rw [record_markPos, ht1mk]
  have hreclen : (record mdl.paramVals e t1).1.nodes.length = n + e.segLen := by
    rw [record_len, ht1len]
  refine ⟨rfl, rfl, rfl, rfl, record_val mdl.paramVals e t1, rfl, ?_, ?_, ?_, ?_⟩
  · show ((record mdl.paramVals e t1).1.propagateToMark
      (record mdl.paramVals e t1).2.idx false).markPos = n
    rw [propagateToMark_false]
    exact hrecmk
  · show n ≤ ((record mdl.paramVals e t1).1.propagateToMark
      (record mdl.paramVals e t1).2.idx false).nodes.length
    rw [propagateToMark_false]
    show n ≤ (record mdl.paramVals e t1).1.nodes.length
    rw [hreclen]
    omega
  · intro i hi
    show ((record mdl.paramVals e t1).1.propagateToMark
      (record mdl.paramVals e t1).2.idx false).nodes.getD i ⟨[]⟩ = ⟨[]⟩
    rw [propagateToMark_false]
    show (record mdl.paramVals e t1).1.nodes.getD i ⟨[]⟩ = ⟨[]⟩
    obtain ⟨seg, hseg, _⟩ := record_nodes mdl.paramVals e t1
    rw [hseg, getD_append_left t1.nodes seg i ⟨[]⟩ (by omega)]
    exact ht1lf i hi
  · intro hnp j
    have hsl : 1 ≤ e.segLen := Expr.segLen_pos e hnp
    have hridx : (record mdl.paramVals e t1).2.idx = n + e.segLen - 1 := by
      rw [record_idx mdl.paramVals e t1 hnp, hreclen]
    show ((record mdl.paramVals e t1).1.propagateToMark
      (record mdl.paramVals e t1).2.idx false).adj (j : ℕ) = _
    rw [propagateToMark_false]
    show walkIdx (record mdl.paramVals e t1).1.nodes
      ((List.range' (record mdl.paramVals e t1).1.markPos
        ((record mdl.paramVals e t1).2.idx + 1 -
          (record mdl.paramVals e t1).1.markPos)).reverse)
      (Function.update (record mdl.paramVals e t1).1.adj
        (record mdl.paramVals e t1).2.idx 1) (j : ℕ) = _
    have hcount : (record mdl.paramVals e t1).2.idx + 1 -
        (record mdl.paramVals e t1).1.markPos = e.segLen := by
      rw [hridx, hrecmk]
      omega
    have hseed : Function.update (record mdl.paramVals e t1).1.adj
        (record mdl.paramVals e t1).2.idx 1 =
        bump t1.adj (record mdl.paramVals e t1).2.idx 1 := by
      rw [record_adj]
      exact update_one_eq_bump t1.adj _ (ht1adj_ge _ (by rw [hridx]; omega))
    rw [hcount, hrecmk, hseed]
    have hwalk := (record_walk mdl.paramVals e t1 (by rw [ht1len]) t1.adj 1
      (fun i hi1 _ => ht1adj_ge i (by omega))).1 j
    rw [ht1len] at hwalk
    rw [hwalk, ht1adj_lt (j : ℕ) j.isLt, one_mul]

lemma mcSimulAADLoop_succ (prd : ProductAAD n) (mdl : ModelAAD n) (tl : List Time)
    (rng : RNG σ) (antithetic : Bool) (idx0 c : ℕ) (st : AADLoopSt σ) :
    mcSimulAADLoop prd mdl tl rng antithetic idx0 (c + 1) st =
      ((mcSimulAADLoop prd mdl tl rng antithetic (idx0 + 1) c
          (aadPathIter prd mdl tl rng antithetic idx0 st).1).1,
       (aadPathIter prd mdl tl rng antithetic idx0 st).2.1 ::
         (mcSimulAADLoop prd mdl tl rng antithetic (idx0 + 1) c
           (aadPathIter prd mdl tl rng antithetic idx0 st).1).2.1,
       (aadPathIter prd mdl tl rng antithetic idx0 st).2.2 ++
         (mcSimulAADLoop prd mdl tl rng antithetic (idx0 + 1) c
           (aadPathIter prd mdl tl rng antithetic idx0 st).1).2.2) := rfl

/-- Closed form of the AAD per-path loop: entry `k` evaluates the payoff
of the path generated from the Gaussian vector `expGauss … k`; the trace
is the concatenation of the per-entry event blocks; the original RNG is
untouched; the RNG clone advances by `expDraws …` draws; the tape
invariants (mark at `n`, at least `n` nodes, parameter leaf prefix) are
preserved; and when no entry's recorded payoff is a bare parameter, each
parameter's adjoint slot grows by the sum of the entries' partial
derivatives. -/
lemma mcSimulAADLoop_spec (prd : ProductAAD n) (mdl : ModelAAD n) (tl : List Time)
    (rng : RNG σ) (antithetic : Bool) (c : ℕ) : ∀ (idx0 : ℕ) (st : AADLoopSt σ),
    st.tape.markPos = n → n ≤ st.tape.nodes.length →
    (∀ i, i < n → st.tape.nodes.getD i ⟨[]⟩ = ⟨[]⟩) →
    (mcSimulAADLoop prd mdl tl rng antithetic idx0 c st).2.1.map Number.val =
      (List.range c).map (fun k =>
        (prd.payoff (mdl.generatePath tl
          (expGauss rng antithetic st.rngS st.gaussVec st.antiPath k))).eval
          mdl.paramVals) ∧
    (mcSimulAADLoop prd mdl tl rng antithetic idx0 c st).2.2 =
      ((List.range c).map (fun k =>
        aadBlock antithetic (expBefore antithetic st.antiPath k) (idx0 + k))).flatten ∧
    (mcSimulAADLoop prd mdl tl rng antithetic idx0 c st).1.origR = st.origR ∧
    (mcSimulAADLoop prd mdl tl rng antithetic idx0 c st).1.rngS =
      advState rng st.rngS (expDraws antithetic st.antiPath c) ∧
    (mcSimulAADLoop prd mdl tl rng antithetic idx0 c st).1.tape.markPos = n ∧
    n ≤ (mcSimulAADLoop prd mdl tl rng antithetic idx0 c st).1.tape.nodes.length ∧
    (∀ i, i < n →
      (mcSimulAADLoop prd mdl tl rng antithetic idx0 c st).1.tape.nodes.getD i ⟨[]⟩ =
        ⟨[]⟩) ∧
    ((∀ k, k < c →
        (prd.payoff (mdl.generatePath tl
          (expGauss rng antithetic st.rngS st.gaussVec st.antiPath k))).isParam =
            false) →
      ∀ j : Fin n,
        (mcSimulAADLoop prd mdl tl rng antithetic idx0 c st).1.tape.adj (j : ℕ) =
          st.tape.adj (j : ℕ) +
            ((List.range c).map (fun k =>
              Expr.pderiv j mdl.paramVals
                (prd.payoff (mdl.generatePath tl
                  (expGauss rng antithetic st.rngS st.gaussVec st.antiPath k))))).sum) := by
  induction c with
  | zero =>
      intro idx0 st hmk hnl hlf
      have hd : expDraws antithetic st.antiPath 0 = 0 := by
        cases antithetic <;> cases st.antiPath <;> rfl
      refine ⟨rfl, rfl, rfl, ?_, hmk, hnl, hlf, ?_⟩
      · rw [hd]; rfl
      · intro _ j
        simp [mcSimulAADLoop]
  | succ c ih =>
      intro idx0 st hmk hnl hlf
      obtain ⟨oR, T, rs, gv, ap⟩ := st
      dsimp only at hmk hnl hlf ⊢
      cases antithetic with
      | false =>
          have hstep : antitheticStep rng false rs gv ap =
              ((rng.nextG rs).2, (rng.nextG rs).1, ap) := by
            simp [antitheticStep]
          obtain ⟨hO, hS, hG, hA, hV, hT, hM, hL, hF, hD⟩ :=
            aadPathIter_spec prd mdl tl rng false idx0 ⟨oR, T, rs, gv, ap⟩ hmk hnl hlf
          dsimp only at hO hS hG hA hV hT hD
          rw [hstep] at hS hG hA hV hD
          dsimp only at hS hG hA hV hD
          obtain ⟨iV, iT, iO, iS, iM, iL, iF, iD⟩ :=
            ih (idx0 + 1) (aadPathIter prd mdl tl rng false idx0 ⟨oR, T, rs, gv, ap⟩).1
              hM hL hF
          simp only [hS, hG, hA] at iV iT iS iD
          rw [hO] at iO
          refine ⟨?_, ?_, ?_, ?_, ?_, ?_, ?_, ?_⟩
          · rw [mcSimulAADLoop_succ, List.map_cons, List.range_succ_eq_map,
              List.map_cons, List.map_map, iV]
            refine congrArg₂ _ ?_ ?_
            · rw [hV]
              simp [expGauss, drawAt, advState]
            · refine congrArg (fun F => List.map F (List.range c)) (funext fun k => ?_)
              dsimp only [Function.comp]
              rw [expGauss_shift_nonanti rng rs gv (rng.nextG rs).1 ap k]
          · rw [mcSimulAADLoop_succ, hT, iT, List.range_succ_eq_map, List.map_cons,
              List.flatten_cons, List.map_map]
            have htail2 : (fun k => aadBlock false (expBefore false ap k) (idx0 + 1 + k)) =
                ((fun k => aadBlock false (expBefore false ap k) (idx0 + k)) ∘
                  Nat.succ) := by
              funext k
              dsimp only [Function.comp]
              rw [expBefore_shift_nonanti ap k]
              have h1 : idx0 + 1 + k = idx0 + (k + 1) := by omega
              rw [h1]
            rw [expBefore_zero, Nat.add_zero, htail2]
            exact rfl
          · rw [mcSimulAADLoop_succ]
            exact iO
          · rw [mcSimulAADLoop_succ, iS]
            have e1 : expDraws false ap c = c := by simp [expDraws]
            have e2 : expDraws false ap (c + 1) = c + 1 := by simp [expDraws]
            rw [e1, e2, advState_succ]
          · rw [mcSimulAADLoop_succ]
            exact iM
          · rw [mcSimulAADLoop_succ]
            exact iL
          · intro i hi
            rw [mcSimulAADLoop_succ]
            exact iF i hi
          · intro hnp j
            rw [mcSimulAADLoop_succ]
            have hg0 : (rng.nextG rs).1 = expGauss rng false rs gv ap 0 := by
              simp [expGauss, drawAt, advState]
            have h0 : (prd.payoff (mdl.generatePath tl (rng.nextG rs).1)).isParam =
                false := by
              rw [hg0]
              exact hnp 0 (by omega)
            have htail : ∀ k, k < c →
                (prd.payoff (mdl.generatePath tl
                  (expGauss rng false (rng.nextG rs).2 (rng.nextG rs).1 ap k))).isParam =
                    false := by
              intro k hk
              rw [expGauss_shift_nonanti rng rs gv (rng.nextG rs).1 ap k]
              exact hnp (k + 1) (by omega)
            rw [iD htail j, hD h0 j]
            simp only [List.range_succ_eq_map, List.map_cons, List.map_map,
              List.sum_cons]
            have hmap : ((List.range c).map (fun k =>
                Expr.pderiv j mdl.paramVals (prd.payoff (mdl.generatePath tl
                  (expGauss rng false (rng.nextG rs).2 (rng.nextG rs).1 ap k))))) =
                (List.range c).map ((fun k =>
                  Expr.pderiv j mdl.paramVals (prd.payoff (mdl.generatePath tl
                    (expGauss rng false rs gv ap k)))) ∘ Nat.succ) := by
              refine congrArg (fun F => List.map F (List.range c)) (funext fun k => ?_)
              dsimp only [Function.comp]
              rw [expGauss_shift_nonanti rng rs gv (rng.nextG rs).1 ap k]
            rw [hmap, hg0]
            ring
      | true =>
          cases ap with
          | false =>
              have hstep : antitheticStep rng true rs gv false =
                  ((rng.nextG rs).2, (rng.nextG rs).1, true) := by
                simp [antitheticStep]
              obtain ⟨hO, hS, hG, hA, hV, hT, hM, hL, hF, hD⟩ :=
                aadPathIter_spec prd mdl tl rng true idx0 ⟨oR, T, rs, gv, false⟩ hmk hnl hlf
              dsimp only at hO hS hG hA hV hT hD
              rw [hstep] at hS hG hA hV hD
              dsimp only at hS hG hA hV hD
              obtain ⟨iV, iT, iO, iS, iM, iL, iF, iD⟩ :=
                ih (idx0 + 1) (aadPathIter prd mdl tl rng true idx0 ⟨oR, T, rs, gv, false⟩).1
                  hM hL hF
              simp only [hS, hG, hA] at iV iT iS iD
              rw [hO] at iO
              refine ⟨?_, ?_, ?_, ?_, ?_, ?_, ?_, ?_⟩
              · rw [mcSimulAADLoop_succ, List.map_cons, List.range_succ_eq_map,
                  List.map_cons, List.map_map, iV]
                refine congrArg₂ _ ?_ ?_
                · rw [hV]
                  simp [expGauss, gaussAt, drawAt, advState]
                · refine congrArg (fun F => List.map F (List.range c)) (funext fun k => ?_)
                  dsimp only [Function.comp]
                  rw [expGauss_shift_primary rng rs gv k]
              · rw [mcSimulAADLoop_succ, hT, iT, List.range_succ_eq_map, List.map_cons,
                  List.flatten_cons, List.map_map]
                have htail2 : (fun k => aadBlock true (expBefore true true k) (idx0 + 1 + k)) =
                    ((fun k => aadBlock true (expBefore true false k) (idx0 + k)) ∘
                      Nat.succ) := by
                  funext k
                  dsimp only [Function.comp]
                  rw [expBefore_shift_primary k]
                  have h1 : idx0 + 1 + k = idx0 + (k + 1) := by omega
                  rw [h1]
                rw [expBefore_zero, Nat.add_zero, htail2]
                exact rfl
              · rw [mcSimulAADLoop_succ]
                exact iO
              · rw [mcSimulAADLoop_succ, iS]
                have e1 : expDraws true true c = c / 2 := by simp [expDraws]
                have e2 : expDraws true false (c + 1) = (c + 1 + 1) / 2 := by
                  simp [expDraws]
                have e3 : (c + 1 + 1) / 2 = 1 + c / 2 := by omega
                rw [e1, e2, e3, advState_add]
                rfl
              · rw [mcSimulAADLoop_succ]
                exact iM
              · rw [mcSimulAADLoop_succ]
                exact iL
              · intro i hi
                rw [mcSimulAADLoop_succ]
                exact iF i hi
              · intro hnp j
                rw [mcSimulAADLoop_succ]
                have hg0 : (rng.nextG rs).1 = expGauss rng true rs gv false 0 := by
                  simp [expGauss, gaussAt, drawAt, advState]
                have h0 : (prd.payoff (mdl.generatePath tl (rng.nextG rs).1)).isParam =
                    false := by
                  rw [hg0]
                  exact hnp 0 (by omega)
                have htail : ∀ k, k < c →
                    (prd.payoff (mdl.generatePath tl
                      (expGauss rng true (rng.nextG rs).2 (rng.nextG rs).1
                        true k))).isParam = false := by
                  intro k hk
                  rw [expGauss_shift_primary rng rs gv k]
                  exact hnp (k + 1) (by omega)
                rw [iD htail j, hD h0 j]
                simp only [List.range_succ_eq_map, List.map_cons, List.map_map,
                  List.sum_cons]
                have hmap : ((List.range c).map (fun k =>
                    Expr.pderiv j mdl.paramVals (prd.payoff (mdl.generatePath tl
                      (expGauss rng true (rng.nextG rs).2 (rng.nextG rs).1 true k))))) =
                    (List.range c).map ((fun k =>
                      Expr.pderiv j mdl.paramVals (prd.payoff (mdl.generatePath tl
                        (expGauss rng true rs gv false k)))) ∘ Nat.succ) := by
                  refine congrArg (fun F => List.map F (List.range c))
                    (funext fun k => ?_)
                  dsimp only [Function.comp]
                  rw [expGauss_shift_primary rng rs gv k]
                rw [hmap, hg0]
                ring
          | true =>
              have hstep : antitheticStep rng true rs gv true =
                  (rs, negVec gv, false) := by
                simp [antitheticStep]
              obtain ⟨hO, hS, hG, hA, hV, hT, hM, hL, hF, hD⟩ :=
                aadPathIter_spec prd mdl tl rng true idx0 ⟨oR, T, rs, gv, true⟩ hmk hnl hlf
              dsimp only at hO hS hG hA hV hT hD
              rw [hstep] at hS hG hA hV hD
              dsimp only at hS hG hA hV hD
              obtain ⟨iV, iT, iO, iS, iM, iL, iF, iD⟩ :=
                ih (idx0 + 1) (aadPathIter prd mdl tl rng true idx0 ⟨oR, T, rs, gv, true⟩).1
                  hM hL hF
              simp only [hS, hG, hA] at iV iT iS iD
              rw [hO] at iO
              refine ⟨?_, ?_, ?_, ?_, ?_, ?_, ?_, ?_⟩
              · rw [mcSimulAADLoop_succ, List.map_cons, List.range_succ_eq_map,
                  List.map_cons, List.map_map, iV]
                refine congrArg₂ _ ?_ ?_
                · rw [hV]
                  simp [expGauss]
                · refine congrArg (fun F => List.map F (List.range c)) (funext fun k => ?_)
                  dsimp only [Function.comp]
                  rw [expGauss_shift_anti rng rs gv k]
              · rw [mcSimulAADLoop_succ, hT, iT, List.range_succ_eq_map, List.map_cons,
                  List.flatten_cons, List.map_map]
                have htail2 : (fun k => aadBlock true (expBefore true false k) (idx0 + 1 + k)) =
                    ((fun k => aadBlock true (expBefore true true k) (idx0 + k)) ∘
                      Nat.succ) := by
                  funext k
                  dsimp only [Function.comp]
                  rw [expBefore_shift_anti k]
                  have h1 : idx0 + 1 + k = idx0 + (k + 1) := by omega
                  rw [h1]
                rw [expBefore_zero, Nat.add_zero, htail2]
                exact rfl
              · rw [mcSimulAADLoop_succ]
                exact iO
              · rw [mcSimulAADLoop_succ, iS]
                have e1 : expDraws true false c = (c + 1) / 2 :=
                  by simp [expDraws]
                have e2 : expDraws true true (c + 1) = (c + 1) / 2 := by
                  simp [expDraws]
                rw [e1, e2]
              · rw [mcSimulAADLoop_succ]
                exact iM
              · rw [mcSimulAADLoop_succ]
                exact iL
              · intro i hi
                rw [mcSimulAADLoop_succ]
                exact iF i hi
              · intro hnp j
                rw [mcSimulAADLoop_succ]
                have hg0 : negVec gv = expGauss rng true rs gv true 0 := by
                  simp [expGauss]
                have h0 : (prd.payoff (mdl.generatePath tl (negVec gv))).isParam =
                    false := by
                  rw [hg0]
                  exact hnp 0 (by omega)
                have htail : ∀ k, k < c →
                    (prd.payoff (mdl.generatePath tl
                      (expGauss rng true rs (negVec gv) false k))).isParam = false := by
                  intro k hk
                  rw [expGauss_shift_anti rng rs gv k]
                  exact hnp (k + 1) (by omega)
                rw [iD htail j, hD h0 j]
                simp only [List.range_succ_eq_map, List.map_cons, List.map_map,
                  List.sum_cons]
                have hmap : ((List.range c).map (fun k =>
                    Expr.pderiv j mdl.paramVals (prd.payoff (mdl.generatePath tl
                      (expGauss rng true rs (negVec gv) false k))))) =
                    (List.range c).map ((fun k =>
                      Expr.pderiv j mdl.paramVals (prd.payoff (mdl.generatePath tl
                        (expGauss rng true rs gv true k)))) ∘ Nat.succ) := by
                  refine congrArg (fun F => List.map F (List.range c))
                    (funext fun k => ?_)
                  dsimp only [Function.comp]
                  rw [expGauss_shift_anti rng rs gv k]
                rw [hmap, hg0]
                ring

lemma propagateMarkToStart_adj (t : Tape) :
    t.propagateMarkToStart.adj =
      walkIdx t.nodes (List.range t.markPos).reverse t.adj := rfl

lemma mcSimulAAD_eq (prd : ProductAAD n) (mdl : ModelAAD n) (rng : RNG σ) (s0 : σ)
    (nPath : ℕ) (antithetic : Bool) (tIn : Tape) :
    mcSimulAAD prd mdl rng s0 nPath antithetic tIn =
      ⟨(mcSimulAADLoop prd mdl prd.timeline rng antithetic 0 nPath
          ⟨s0, (tIn.rewind.putOnTape n).mark, rng.init mdl.simDim s0,
            List.replicate mdl.simDim 0, false⟩).2.1.map (fun nb => nb.val),
       mdl,
       (mcSimulAADLoop prd mdl prd.timeline rng antithetic 0 nPath
          ⟨s0, (tIn.rewind.putOnTape n).mark, rng.init mdl.simDim s0,
            List.replicate mdl.simDim 0, false⟩).1.tape.propagateMarkToStart,
       (mcSimulAADLoop prd mdl prd.timeline rng antithetic 0 nPath
          ⟨s0, (tIn.rewind.putOnTape n).mark, rng.init mdl.simDim s0,
            List.replicate mdl.simDim 0, false⟩).1.origR,
       [Ev.rewind, Ev.putOnTape, Ev.initModel, Ev.markTape] ++
         (mcSimulAADLoop prd mdl prd.timeline rng antithetic 0 nPath
           ⟨s0, (tIn.rewind.putOnTape n).mark, rng.init mdl.simDim s0,
             List.replicate mdl.simDim 0, false⟩).2.2 ++
         [Ev.propMarkToStart 0]⟩ := rfl

/-- Full characterisation of the instrumented `mcSimulAAD`: the payoffs
are the `nPath` pathwise payoff values in path order; the returned model
is the clone; the original RNG state is untouched; the trace is the setup
prefix, the per-path blocks, and the final propagation; and, when no
recorded per-path payoff is a bare parameter, the adjoint slot of each
parameter holds the sum over paths of the payoff's partial derivative
with respect to it — the derivative of the sum of the path payoffs. -/
lemma mcSimulAAD_spec (prd : ProductAAD n) (mdl : ModelAAD n) (rng : RNG σ) (s0 : σ)
    (nPath : ℕ) (antithetic : Bool) (tIn : Tape) :
    (mcSimulAAD prd mdl rng s0 nPath antithetic tIn).payoffs =
      (List.range nPath).map (fun k =>
        (prd.payoff (mdl.generatePath prd.timeline
          (expGauss rng antithetic (rng.init mdl.simDim s0)
            (List.replicate mdl.simDim 0) false k))).eval mdl.paramVals) ∧
    (mcSimulAAD prd mdl rng s0 nPath antithetic tIn).model = mdl ∧
    (mcSimulAAD prd mdl rng s0 nPath antithetic tIn).origR = s0 ∧
    (mcSimulAAD prd mdl rng s0 nPath antithetic tIn).trace =
      [Ev.rewind, Ev.putOnTape, Ev.initModel, Ev.markTape] ++
        ((List.range nPath).map (fun k =>
          aadBlock antithetic (expBefore antithetic false k) k)).flatten ++
        [Ev.propMarkToStart 0] ∧
    ((∀ k, k < nPath →
        (prd.payoff (mdl.generatePath prd.timeline
          (expGauss rng antithetic (rng.init mdl.simDim s0)
            (List.replicate mdl.simDim 0) false k))).isParam = false) →
      ∀ j : Fin n,
        (mcSimulAAD prd mdl rng s0 nPath antithetic tIn).tape.adj (j : ℕ) =
          ((List.range nPath).map (fun k =>
            Expr.pderiv j mdl.paramVals
              (prd.payoff (mdl.generatePath prd.timeline
                (expGauss rng antithetic (rng.init mdl.simDim s0)
                  (List.replicate mdl.simDim 0) false k))))).sum) := by
  obtain ⟨hV, hT, hO, _hS, hM, _hL, hF, hD⟩ :=
    mcSimulAADLoop_spec prd mdl prd.timeline rng antithetic nPath 0
      (⟨s0, (tIn.rewind.putOnTape n).mark, rng.init mdl.simDim s0,
        List.replicate mdl.simDim 0, false⟩ : AADLoopSt σ)
      (setupTape_markPos tIn)
      (by rw [setupTape_len tIn])
      (setupTape_leaf tIn)
  dsimp only at hV hT hO hM hF hD
  refine ⟨?_, ?_, ?_, ?_, ?_⟩
  · rw [mcSimulAAD_eq]
    exact hV
  · rw [mcSimulAAD_eq]
  · rw [mcSimulAAD_eq]
    exact hO
  · rw [mcSimulAAD_eq]
    dsimp only
    rw [hT]
    have hmap : (List.range nPath).map (fun k =>
        aadBlock antithetic (expBefore antithetic false k) (0 + k)) =
        (List.range nPath).map (fun k =>
          aadBlock antithetic (expBefore antithetic false k) k) := by
      refine congrArg (fun F => List.map F (List.range nPath)) (funext fun k => ?_)
      rw [Nat.zero_add]
    rw [hmap]
  · intro hnp j
    rw [mcSimulAAD_eq]
    dsimp only
    rw [propagateMarkToStart_adj, hM]
    have hleaf : ∀ i ∈ (List.range n).reverse,
        ((mcSimulAADLoop prd mdl prd.timeline rng antithetic 0 nPath
          ⟨s0, (tIn.rewind.putOnTape n).mark, rng.init mdl.simDim s0,
            List.replicate mdl.simDim 0, false⟩).1.tape.nodes.getD i ⟨[]⟩).inputs =
          [] := by
      intro i hi
      rw [List.mem_reverse, List.mem_range] at hi
      rw [hF i hi]
    rw [walkIdx_leaves _ _ hleaf, hD hnp j, setupTape_adj tIn, zero_add]

/-- Per-thread state of `mcParallelSimulAAD` (`mcBase.h`, lines 414-427):
the initialized flag (`init[t]`), the thread's tape (`tapes[t-1]` for
workers, the main tape for thread 0), the thread's RNG clone state
(`cRng[t]`), and the thread's Gaussian buffer (`gaussVecs[t]`). -/
structure ThreadSt (σ : Type) where
  inited : Bool
  tape : Tape
  rngS : σ
  gv : List ℚ

/-- One batch task of `mcParallelSimulAAD` (`mcBase.h`, lines 449-517)
run on thread `t` in state `ts`: switch the current tape to the thread's
tape (event emitted for workers, `t > 0`), run `initSimul` once per
thread if not yet initialized, clone the thread's RNG and position it
with `skipTo(antithetic ? firstPath / 2 : firstPath)`, then run the same
per-path loop as the sequential simulator with a task-local
`antiPath = false`, writing `res[firstPath + i]`. -/
def runBatchAAD (prd : ProductAAD n) (mdl : ModelAAD n) (rng : RNG σ) (s0 : σ)
    (antithetic : Bool) (t : ℕ) (b : ℕ × ℕ) (ts : ThreadSt σ) :
    ThreadSt σ × List (ℕ × Number) × List Ev :=
  let switchEv : List Ev := if 0 < t then [Ev.setTape t] else []
  let ts1 : ThreadSt σ :=
    if ts.inited then ts
    else ⟨true, ((ts.tape.rewind.putOnTape n).mark), rng.init mdl.simDim s0,
          List.replicate mdl.simDim 0⟩
  let initEv : List Ev :=
    if ts.inited then []
    else [Ev.rewind, Ev.putOnTape, Ev.initModel, Ev.markTape]
  let sTask := rng.skipTo (if antithetic then b.1 / 2 else b.1) ts1.rngS
  let loop := mcSimulAADLoop prd mdl prd.timeline rng antithetic b.1 b.2
    ⟨s0, ts1.tape, sTask, ts1.gv, false⟩
  (⟨true, loop.1.tape, ts1.rngS, loop.1.gaussVec⟩,
   (List.range' b.1 b.2).zip loop.2.1,
   switchEv ++ initEv ++ loop.2.2)

/-- The batch phase of `mcParallelSimulAAD`: fold over the spawned
batches in spawn order; `assign bi` is the pool thread that executes
batch number `bi` (the schedule).  Returns the final per-thread states,
the indexed result writes, and the event trace. -/
def batchFoldAAD (prd : ProductAAD n) (mdl : ModelAAD n) (rng : RNG σ) (s0 : σ)
    (antithetic : Bool) (assign : ℕ → ℕ) :
    List (ℕ × ℕ) → ℕ → (ℕ → ThreadSt σ) →
      (ℕ → ThreadSt σ) × List (ℕ × Number) × List Ev
  | [], _, ths => (ths, [], [])
  | b :: bs, bi, ths =>
      let one := runBatchAAD prd mdl rng s0 antithetic (assign bi) b (ths (assign bi))
      let rest := batchFoldAAD prd mdl rng s0 antithetic assign bs (bi + 1)
        (Function.update ths (assign bi) one.1)
      (rest.1, one.2.1 ++ rest.2.1, one.2.2 ++ rest.2.2)

/-- Finalization events of `mcParallelSimulAAD` (`mcBase.h`, lines
532-544): for each worker thread that was initialized, switch the
current tape to that thread's tape and propagate it from the mark to the
start. -/
def finalizeTapes (ths : ℕ → ThreadSt σ) (nThread : ℕ) : List Ev :=
  ((List.range nThread).map (fun i =>
    if (ths (i + 1)).inited then [Ev.setTape (i + 1), Ev.propMarkToStart (i + 1)]
    else [])).flatten

/-- Adjoint accumulation of `mcParallelSimulAAD` (`mcBase.h`, lines
550-561): for each initialized worker thread, add the adjoints of its
model clone's parameters (slots `0 .. nParams-1` of its propagated tape)
element-wise into the main-thread parameters' adjoints; uninitialized
threads are skipped. -/
def accumAdjoints (ths : ℕ → ThreadSt σ) (nThread nParams : ℕ) (A : ℕ → ℚ) : ℕ → ℚ :=
  (List.range nThread).foldl (fun B i =>
    if (ths (i + 1)).inited then
      (List.range nParams).foldl
        (fun C j => bump C j (((ths (i + 1)).tape.propagateMarkToStart).adj j)) B
    else B) A

/-- Result of the instrumented `mcParallelSimulAAD`: the assembled payoff
vector, the main-thread tape after finalization (slots `0 .. n-1` are the
returned model clone's parameter adjoints), the untouched original RNG
state, and the event trace. -/
structure ParAADOut (σ : Type) where
  res : List ℚ
  mainTape : Tape
  origR : σ
  trace : List Ev

/-- Initial per-thread states of `mcParallelSimulAAD`: the main thread
(0) is initialized by `initSimul` before any task is spawned; worker
threads start uninitialized with empty default-constructed tapes. -/
def parThreads0 (mdl : ModelAAD n) (rng : RNG σ) (s0 : σ) (tIn : Tape) :
    ℕ → ThreadSt σ :=
  fun t => if t = 0 then
    ⟨true, ((tIn.rewind.putOnTape n).mark), rng.init mdl.simDim s0,
     List.replicate mdl.simDim 0⟩
  else ⟨false, ⟨[], fun _ => 0, 0⟩, s0, []⟩

/-- The whole batch phase of `mcParallelSimulAAD`: fold the spawned
batches over the initial thread states under the schedule `assign`. -/
def parAADRun (prd : ProductAAD n) (mdl : ModelAAD n) (rng : RNG σ) (s0 : σ)
    (nPath : ℕ) (antithetic : Bool) (assign : ℕ → ℕ) (tIn : Tape) :
    (ℕ → ThreadSt σ) × List (ℕ × Number) × List Ev :=
  batchFoldAAD prd mdl rng s0 antithetic assign (batchLoop 0 nPath) 0
    (parThreads0 mdl rng s0 tIn)

/-- Embedding of `mcParallelSimulAAD` (`mcBase.h`, lines 396-575): run
`initSimul` on the main thread, spawn one task per batch (scheduled by
`assign` onto threads `0 .. nThread`, 0 being the main thread), apply
the writes in spawn order, then propagate the main tape mark-to-start,
propagate each initialized worker's tape (switching the current tape),
restore the current tape, and add each initialized worker's parameter
adjoints into the main model clone's, which is returned. -/
def mcParallelSimulAAD (prd : ProductAAD n) (mdl : ModelAAD n) (rng : RNG σ) (s0 : σ)
    (nPath : ℕ) (antithetic : Bool) (nThread : ℕ) (assign : ℕ → ℕ) (tIn : Tape) :
    ParAADOut σ :=
  let run := parAADRun prd mdl rng s0 nPath antithetic assign tIn
  let mainT := (run.1 0).tape.propagateMarkToStart
  ⟨applyWrites ((run.2.1).map (fun w => (w.1, w.2.val))) (List.replicate nPath 0),
   ⟨mainT.nodes, accumAdjoints run.1 nThread n mainT.adj, mainT.markPos⟩,
   s0,
   [Ev.rewind, Ev.putOnTape, Ev.initModel, Ev.markTape] ++ run.2.2 ++
     [Ev.propMarkToStart 0] ++ finalizeTapes run.1 nThread ++ [Ev.setTape 0]⟩

lemma mcSimulAADLoop_len (prd : ProductAAD n) (mdl : ModelAAD n) (tl : List Time)
    (rng : RNG σ) (antithetic : Bool) :
    ∀ (c idx0 : ℕ) (st : AADLoopSt σ),
      (mcSimulAADLoop prd mdl tl rng antithetic idx0 c st).2.1.length = c := by
  intro c
  induction c with
  | zero => intro idx0 st; rfl
  | succ c ih =>
      intro idx0 st
      rw [mcSimulAADLoop_succ, List.length_cons, ih]

/-- Every event in the trace of the AAD per-path loop is one of the five
per-iteration operations. -/
lemma mcSimulAADLoop_events (prd : ProductAAD n) (mdl : ModelAAD n) (tl : List Time)
    (rng : RNG σ) (antithetic : Bool) :
    ∀ (c idx0 : ℕ) (st : AADLoopSt σ),
      ∀ e ∈ (mcSimulAADLoop prd mdl tl rng antithetic idx0 c st).2.2,
        e = Ev.rewindToMark ∨ e = Ev.nextGEv ∨ e = Ev.negateG ∨ e = Ev.genPath ∨
          (∃ i, e = Ev.payoffEval i) ∨ e = Ev.propToMark false := by
  intro c
  induction c with
  | zero => intro idx0 st e he; exact absurd he (List.not_mem_nil e)
  | succ c ih =>
      intro idx0 st e he
      rw [mcSimulAADLoop_succ] at he
      rcases List.mem_append.mp he with h1 | h2
      · have hblock : (aadPathIter prd mdl tl rng antithetic idx0 st).2.2 =
            aadBlock antithetic st.antiPath idx0 := rfl
        rw [hblock] at h1
        unfold aadBlock at h1
        rcases hcond : antithetic && st.antiPath with _ | _
        · rw [hcond] at h1
          simp at h1
          rcases h1 with rfl | rfl | rfl | rfl | rfl
          · exact Or.inl rfl
          · exact Or.inr (Or.inl rfl)
          · exact Or.inr (Or.inr (Or.inr (Or.inl rfl)))
          · exact Or.inr (Or.inr (Or.inr (Or.inr (Or.inl ⟨idx0, rfl⟩))))
          · exact Or.inr (Or.inr (Or.inr (Or.inr (Or.inr rfl))))
        · rw [hcond] at h1
          simp at h1
          rcases h1 with rfl | rfl | rfl | rfl | rfl
          · exact Or.inl rfl
          · exact Or.inr (Or.inr (Or.inl rfl))
          · exact Or.inr (Or.inr (Or.inr (Or.inl rfl)))
          · exact Or.inr (Or.inr (Or.inr (Or.inr (Or.inl ⟨idx0, rfl⟩))))
          · exact Or.inr (Or.inr (Or.inr (Or.inr (Or.inr rfl))))
      · exact ih (idx0 + 1) _ e h2

/-- Tape invariant of an initialized thread: mark at the parameter count,
at least `n` nodes, and the parameter nodes are leaves. -/
def ThreadInv (n : ℕ) (ts : ThreadSt σ) : Prop :=
  ts.tape.markPos = n ∧ n ≤ ts.tape.nodes.length ∧
    (∀ i, i < n → ts.tape.nodes.getD i ⟨[]⟩ = ⟨[]⟩)

lemma runBatchAAD_state (prd : ProductAAD n) (mdl : ModelAAD n) (rng : RNG σ)
    (s0 : σ) (antithetic : Bool) (t : ℕ) (b : ℕ × ℕ) (ts : ThreadSt σ)
    (hts : ts.inited = true → ThreadInv n ts) :
    (runBatchAAD prd mdl rng s0 antithetic t b ts).1.inited = true ∧
    ThreadInv n (runBatchAAD prd mdl rng s0 antithetic t b ts).1 := by
  cases hin : ts.inited with
  | true =>
      obtain ⟨h1, h2, h3⟩ := hts hin
      have heq : runBatchAAD prd mdl rng s0 antithetic t b ts =
          (⟨true,
            (mcSimulAADLoop prd mdl prd.timeline rng antithetic b.1 b.2
              ⟨s0, ts.tape,
               rng.skipTo (if antithetic then b.1 / 2 else b.1) ts.rngS, ts.gv,
               false⟩).1.tape,
            ts.rngS,
            (mcSimulAADLoop prd mdl prd.timeline rng antithetic b.1 b.2
              ⟨s0, ts.tape,
               rng.skipTo (if antithetic then b.1 / 2 else b.1) ts.rngS, ts.gv,
               false⟩).1.gaussVec⟩,
           (List.range' b.1 b.2).zip
             (mcSimulAADLoop prd mdl prd.timeline rng antithetic b.1 b.2
               ⟨s0, ts.tape,
                rng.skipTo (if antithetic then b.1 / 2 else b.1) ts.rngS, ts.gv,
                false⟩).2.1,
           (if 0 < t then [Ev.setTape t] else []) ++ [] ++
             (mcSimulAADLoop prd mdl prd.timeline rng antithetic b.1 b.2
               ⟨s0, ts.tape,
                rng.skipTo (if antithetic then b.1 / 2 else b.1) ts.rngS, ts.gv,
                false⟩).2.2) := by
        unfold runBatchAAD
        rw [hin]
        rfl
      obtain ⟨_, _, _, _, hM, hL, hF, _⟩ :=
        mcSimulAADLoop_spec prd mdl prd.timeline rng antithetic b.2 b.1
          (⟨s0, ts.tape,
            rng.skipTo (if antithetic then b.1 / 2 else b.1) ts.rngS, ts.gv,
            false⟩ : AADLoopSt σ) h1 h2 h3
      rw [heq]
      exact ⟨rfl, hM, hL, hF⟩
  | false =>
      have heq : runBatchAAD prd mdl rng s0 antithetic t b ts =
          (⟨true,
            (mcSimulAADLoop prd mdl prd.timeline rng antithetic b.1 b.2
              ⟨s0, ((ts.tape.rewind.putOnTape n).mark),
               rng.skipTo (if antithetic then b.1 / 2 else b.1)
                 (rng.init mdl.simDim s0),
               List.replicate mdl.simDim 0, false⟩).1.tape,
            rng.init mdl.simDim s0,
            (mcSimulAADLoop prd mdl prd.timeline rng antithetic b.1 b.2
              ⟨s0, ((ts.tape.rewind.putOnTape n).mark),
               rng.skipTo (if antithetic then b.1 / 2 else b.1)
                 (rng.init mdl.simDim s0),
               List.replicate mdl.simDim 0, false⟩).1.gaussVec⟩,
           (List.range' b.1 b.2).zip
             (mcSimulAADLoop prd mdl prd.timeline rng antithetic b.1 b.2
               ⟨s0, ((ts.tape.rewind.putOnTape n).mark),
                rng.skipTo (if antithetic then b.1 / 2 else b.1)
                  (rng.init mdl.simDim s0),
                List.replicate mdl.simDim 0, false⟩).2.1,
           (if 0 < t then [Ev.setTape t] else []) ++
             [Ev.rewind, Ev.putOnTape, Ev.initModel, Ev.markTape] ++
             (mcSimulAADLoop prd mdl prd.timeline rng antithetic b.1 b.2
               ⟨s0, ((ts.tape.rewind.putOnTape n).mark),
                rng.skipTo (if antithetic then b.1 / 2 else b.1)
                  (rng.init mdl.simDim s0),
                List.replicate mdl.simDim 0, false⟩).2.2) := by
        unfold runBatchAAD
        rw [hin]
        rfl
      obtain ⟨_, _, _, _, hM, hL, hF, _⟩ :=
        mcSimulAADLoop_spec prd mdl prd.timeline rng antithetic b.2 b.1
          (⟨s0, ((ts.tape.rewind.putOnTape n).mark),
            rng.skipTo (if antithetic then b.1 / 2 else b.1)
              (rng.init mdl.simDim s0),
            List.replicate mdl.simDim 0, false⟩ : AADLoopSt σ)
          (setupTape_markPos ts.tape)
          (by rw [setupTape_len ts.tape])
          (setupTape_leaf ts.tape)
      rw [heq]
      exact ⟨rfl, hM, hL, hF⟩

lemma runBatchAAD_writes (prd : ProductAAD n) (mdl : ModelAAD n) (rng : RNG σ)
    (s0 : σ) (antithetic : Bool) (t : ℕ) (b : ℕ × ℕ) (ts : ThreadSt σ) :
    (runBatchAAD prd mdl rng s0 antithetic t b ts).2.1 =
      (List.range' b.1 b.2).zip
        (mcSimulAADLoop prd mdl prd.timeline rng antithetic b.1 b.2
          ⟨s0, (if ts.inited then ts.tape else ((ts.tape.rewind.putOnTape n).mark)),
           rng.skipTo (if antithetic then b.1 / 2 else b.1)
             (if ts.inited then ts.rngS else rng.init mdl.simDim s0),
           (if ts.inited then ts.gv else List.replicate mdl.simDim 0),
           false⟩).2.1 := by
  cases hin : ts.inited <;> (unfold runBatchAAD; rw [hin]; rfl)

lemma runBatchAAD_trace (prd : ProductAAD n) (mdl : ModelAAD n) (rng : RNG σ)
    (s0 : σ) (antithetic : Bool) (t : ℕ) (b : ℕ × ℕ) (ts : ThreadSt σ) :
    (runBatchAAD prd mdl rng s0 antithetic t b ts).2.2 =
      (if 0 < t then [Ev.setTape t] else []) ++
      (if ts.inited then []
        else [Ev.rewind, Ev.putOnTape, Ev.initModel, Ev.markTape]) ++
      (mcSimulAADLoop prd mdl prd.timeline rng antithetic b.1 b.2
        ⟨s0, (if ts.inited then ts.tape else ((ts.tape.rewind.putOnTape n).mark)),
         rng.skipTo (if antithetic then b.1 / 2 else b.1)
           (if ts.inited then ts.rngS else rng.init mdl.simDim s0),
         (if ts.inited then ts.gv else List.replicate mdl.simDim 0),
         false⟩).2.2 := by
  cases hin : ts.inited <;> (unfold runBatchAAD; rw [hin]; rfl)

lemma runBatchAAD_writes_fst (prd : ProductAAD n) (mdl : ModelAAD n) (rng : RNG σ)
    (s0 : σ) (antithetic : Bool) (t : ℕ) (b : ℕ × ℕ) (ts : ThreadSt σ) :
    ((runBatchAAD prd mdl rng s0 antithetic t b ts).2.1).map Prod.fst =
      List.range' b.1 b.2 := by
  rw [runBatchAAD_writes]
  exact List.map_fst_zip _ _
    (by rw [mcSimulAADLoop_len, List.length_range'])

lemma runBatchAAD_no_pmts (prd : ProductAAD n) (mdl : ModelAAD n) (rng : RNG σ)
    (s0 : σ) (antithetic : Bool) (t : ℕ) (b : ℕ × ℕ) (ts : ThreadSt σ) (k : ℕ) :
    Ev.propMarkToStart k ∉ (runBatchAAD prd mdl rng s0 antithetic t b ts).2.2 := by
  rw [runBatchAAD_trace]
  intro hmem
  rcases List.mem_append.mp hmem with hmem1 | hmem2
  · rcases List.mem_append.mp hmem1 with h | h
    · by_cases h0 : 0 < t
      · rw [if_pos h0] at h
        simp at h
      · rw [if_neg h0] at h
        simp at h
    · cases hb : ts.inited <;> rw [hb] at h <;> simp at h
  · rcases mcSimulAADLoop_events prd mdl prd.timeline rng antithetic b.2 b.1 _ _ hmem2
      with h | h | h | h | ⟨i, h⟩ | h <;> simp at h

lemma batchFoldAAD_cons (prd : ProductAAD n) (mdl : ModelAAD n) (rng : RNG σ)
    (s0 : σ) (antithetic : Bool) (assign : ℕ → ℕ) (b : ℕ × ℕ) (bs : List (ℕ × ℕ))
    (bi : ℕ) (ths : ℕ → ThreadSt σ) :
    batchFoldAAD prd mdl rng s0 antithetic assign (b :: bs) bi ths =
      ((batchFoldAAD prd mdl rng s0 antithetic assign bs (bi + 1)
          (Function.update ths (assign bi)
            (runBatchAAD prd mdl rng s0 antithetic (assign bi) b
              (ths (assign bi))).1)).1,
       (runBatchAAD prd mdl rng s0 antithetic (assign bi) b (ths (assign bi))).2.1 ++
         (batchFoldAAD prd mdl rng s0 antithetic assign bs (bi + 1)
           (Function.update ths (assign bi)
             (runBatchAAD prd mdl rng s0 antithetic (assign bi) b
               (ths (assign bi))).1)).2.1,
       (runBatchAAD prd mdl rng s0 antithetic (assign bi) b (ths (assign bi))).2.2 ++
         (batchFoldAAD prd mdl rng s0 antithetic assign bs (bi + 1)
           (Function.update ths (assign bi)
             (runBatchAAD prd mdl rng s0 antithetic (assign bi) b
               (ths (assign bi))).1)).2.2) := rfl

lemma batchFoldAAD_writes_fst (prd : ProductAAD n) (mdl : ModelAAD n) (rng : RNG σ)
    (s0 : σ) (antithetic : Bool) (assign : ℕ → ℕ) :
    ∀ (bs : List (ℕ × ℕ)) (bi : ℕ) (ths : ℕ → ThreadSt σ),
      ((batchFoldAAD prd mdl rng s0 antithetic assign bs bi ths).2.1).map Prod.fst =
        (bs.map (fun b => List.range' b.1 b.2)).flatten := by
  intro bs
  induction bs with
  | nil => intro bi ths; rfl
  | cons b bs ih =>
      intro bi ths
      rw [batchFoldAAD_cons]
      show ((runBatchAAD prd mdl rng s0 antithetic (assign bi) b
          (ths (assign bi))).2.1 ++ _).map Prod.fst = _
      rw [List.map_append, runBatchAAD_writes_fst, ih, List.map_cons,
        List.flatten_cons]

lemma batchFoldAAD_no_pmts (prd : ProductAAD n) (mdl : ModelAAD n) (rng : RNG σ)
    (s0 : σ) (antithetic : Bool) (assign : ℕ → ℕ) :
    ∀ (bs : List (ℕ × ℕ)) (bi : ℕ) (ths : ℕ → ThreadSt σ) (k : ℕ),
      Ev.propMarkToStart k ∉
        (batchFoldAAD prd mdl rng s0 antithetic assign bs bi ths).2.2 := by
  intro bs
  induction bs with
  | nil => intro bi ths k h; exact absurd h (List.not_mem_nil _)
  | cons b bs ih =>
      intro bi ths k h
      rw [batchFoldAAD_cons] at h
      rcases List.mem_append.mp h with h1 | h2
      · exact runBatchAAD_no_pmts prd mdl rng s0 antithetic _ b _ k h1
      · exact ih (bi + 1) _ k h2

lemma batchFoldAAD_inv (prd : ProductAAD n) (mdl : ModelAAD n) (rng : RNG σ)
    (s0 : σ) (antithetic : Bool) (assign : ℕ → ℕ) :
    ∀ (bs : List (ℕ × ℕ)) (bi : ℕ) (ths : ℕ → ThreadSt σ),
      (∀ t, (ths t).inited = true → ThreadInv n (ths t)) →
      ∀ t, ((batchFoldAAD prd mdl rng s0 antithetic assign bs bi ths).1 t).inited =
          true →
        ThreadInv n ((batchFoldAAD prd mdl rng s0 antithetic assign bs bi ths).1 t) := by
  intro bs
  induction bs with
  | nil => intro bi ths h t ht; exact h t ht
  | cons b bs ih =>
      intro bi ths h t
      rw [batchFoldAAD_cons]
      refine ih (bi + 1) _ ?_ t
      intro t' ht'
      rcases eq_or_ne t' (assign bi) with rfl | hne
      · rw [Function.update_same] at ht' ⊢
        exact (runBatchAAD_state prd mdl rng s0 antithetic _ b _ (h _)).2
      · rw [Function.update_noteq hne] at ht' ⊢
        exact h t' ht'

lemma batchFoldAAD_inited (prd : ProductAAD n) (mdl : ModelAAD n) (rng : RNG σ)
    (s0 : σ) (antithetic : Bool) (assign : ℕ → ℕ) :
    ∀ (bs : List (ℕ × ℕ)) (bi : ℕ) (ths : ℕ → ThreadSt σ) (t : ℕ),
      ((batchFoldAAD prd mdl rng s0 antithetic assign bs bi ths).1 t).inited = true ↔
        ((ths t).inited = true ∨ ∃ k, k < bs.length ∧ assign (bi + k) = t) := by
  intro bs
  induction bs with
  | nil =>
      intro bi ths t
      simp [batchFoldAAD]
  | cons b bs ih =>
      intro bi ths t
      rw [batchFoldAAD_cons]
      rw [ih (bi + 1) _ t]
      rcases eq_or_ne t (assign bi) with heq | hne
      · constructor
        · intro _
          exact Or.inr ⟨0, by simp, by rw [Nat.add_zero, ← heq]⟩
        · intro _
          left
          rw [heq, Function.update_same]
          rfl
      · rw [Function.update_noteq hne]
        constructor
        · rintro (h | ⟨k, hk, hke⟩)
          · exact Or.inl h
          · refine Or.inr ⟨k + 1, by simp; omega, ?_⟩
            rw [show bi + (k + 1) = bi + 1 + k by omega]
            exact hke
        · rintro (h | ⟨k, hk, hke⟩)
          · exact Or.inl h
          · match k with
            | 0 =>
                rw [Nat.add_zero] at hke
                exact absurd hke.symm hne
            | k + 1 =>
                refine Or.inr ⟨k, ?_, ?_⟩
                · simp at hk
                  omega
                · rw [show bi + 1 + k = bi + (k + 1) by omega]
                  exact hke

lemma bumpFold_apply (w : ℕ → ℚ) :
    ∀ (l : List ℕ), l.Nodup → ∀ (B : ℕ → ℚ) (j : ℕ),
      (l.foldl (fun C i => bump C i (w i)) B) j =
        B j + (if j ∈ l then w j else 0) := by
  intro l
  induction l with
  | nil => intro _ B j; simp
  | cons i l ih =>
      intro hnd B j
      rw [List.foldl_cons, ih (List.nodup_cons.mp hnd).2]
      rcases eq_or_ne j i with rfl | hne
      · rw [bump_self, if_neg (List.nodup_cons.mp hnd).1,
          if_pos (List.mem_cons_self j l), add_zero]
      · rw [bump_ne _ _ _ _ hne]
        by_cases hj : j ∈ l
        · rw [if_pos hj, if_pos (List.mem_cons_of_mem _ hj)]
        · rw [if_neg hj, if_neg (by simp [hne, hj])]

lemma accumAdjoints_spec (ths : ℕ → ThreadSt σ) (nParams : ℕ) :
    ∀ (nThread : ℕ) (A : ℕ → ℚ) (j : ℕ), j < nParams →
      accumAdjoints ths nThread nParams A j =
        A j + ((List.range nThread).map (fun i =>
          if (ths (i + 1)).inited then
            ((ths (i + 1)).tape.propagateMarkToStart).adj j else 0)).sum := by
  intro nThread
  induction nThread with
  | zero => intro A j _; simp [accumAdjoints]
  | succ m ih =>
      intro A j hj
      unfold accumAdjoints
      simp only [List.range_succ, List.foldl_append, List.foldl_cons, List.foldl_nil,
        List.map_append, List.sum_append, List.map_cons, List.map_nil,
        List.sum_cons, List.sum_nil]
      have hprev := ih A j hj
      unfold accumAdjoints at hprev
      by_cases hi : (ths (m + 1)).inited = true
      · rw [if_pos hi, if_pos hi,
          bumpFold_apply _ (List.range nParams) (List.nodup_range nParams),
          if_pos (List.mem_range.mpr hj), hprev]
        ring
      · rw [if_neg hi, if_neg hi, hprev]
        ring

lemma propMTS_noop (t : Tape) (hm : t.markPos = n)
    (hlf : ∀ i, i < n → t.nodes.getD i ⟨[]⟩ = ⟨[]⟩) :
    t.propagateMarkToStart.adj = t.adj := by
  rw [propagateMarkToStart_adj, hm]
  refine walkIdx_leaves _ _ ?_ t.adj
  intro i hi
  rw [List.mem_reverse, List.mem_range] at hi
  rw [hlf i hi]

lemma finalizeTapes_count (ths : ℕ → ThreadSt σ) (i : ℕ) :
    ∀ nThread : ℕ,
      (finalizeTapes ths nThread).count (Ev.propMarkToStart (i + 1)) =
        if i < nThread ∧ (ths (i + 1)).inited = true then 1 else 0 := by
  intro nThread
  induction nThread with
  | zero => simp [finalizeTapes]
  | succ m ih =>
      unfold finalizeTapes
      rw [List.range_succ, List.map_append, List.flatten_append, List.count_append]
      have h1 : (((List.range m).map (fun i' =>
          if (ths (i' + 1)).inited then
            [Ev.setTape (i' + 1), Ev.propMarkToStart (i' + 1)]
          else [])).flatten).count (Ev.propMarkToStart (i + 1)) =
          if i < m ∧ (ths (i + 1)).inited = true then 1 else 0 := ih
      rw [h1]
      simp only [List.map_cons, List.map_nil, List.flatten_cons, List.flatten_nil,
        List.append_nil]
      have h2 : ((if (ths (m + 1)).inited = true then
          [Ev.setTape (m + 1), Ev.propMarkToStart (m + 1)] else [])).count
            (Ev.propMarkToStart (i + 1)) =
          if i = m ∧ (ths (m + 1)).inited = true then 1 else 0 := by
        by_cases him : (ths (m + 1)).inited = true
        · rw [if_pos him]
          rcases eq_or_ne i m with rfl | hne
          · rw [if_pos ⟨rfl, him⟩]
            simp [List.count_cons]
          · rw [if_neg (by tauto)]
            simp [List.count_cons, List.count_nil, hne]
        · rw [if_neg him, if_neg (by tauto)]
          simp
      rw [h2]
      by_cases him : (ths (i + 1)).inited = true
      · rcases Nat.lt_trichotomy i m with hlt | heq | hgt
        · rw [if_pos ⟨hlt, him⟩, if_neg (by omega), if_pos ⟨by omega, him⟩]
        · subst heq
          rw [if_neg (by omega), if_pos ⟨rfl, him⟩, if_pos ⟨by omega, him⟩]
        · rw [if_neg (by omega), if_neg (by omega), if_neg (by omega)]
      · rw [if_neg (by tauto), if_neg (by rintro ⟨rfl, hx⟩; exact him hx),
          if_neg (by tauto)]

lemma parAADRun_eq (prd : ProductAAD n) (mdl : ModelAAD n) (rng : RNG σ) (s0 : σ)
    (nPath : ℕ) (antithetic : Bool) (assign : ℕ → ℕ) (tIn : Tape) :
    parAADRun prd mdl rng s0 nPath antithetic assign tIn =
      batchFoldAAD prd mdl rng s0 antithetic assign (batchLoop 0 nPath) 0
        (parThreads0 mdl rng s0 tIn) := rfl

lemma parThreads0_inited (mdl : ModelAAD n) (rng : RNG σ) (s0 : σ) (tIn : Tape)
    (t : ℕ) : (parThreads0 mdl rng s0 tIn t).inited = true ↔ t = 0 := by
  by_cases h0 : t = 0
  · subst h0
    unfold parThreads0
    rw [if_pos rfl]
    simp
  · unfold parThreads0
    rw [if_neg h0]
    simp [h0]

lemma parThreads0_inv (mdl : ModelAAD n) (rng : RNG σ) (s0 : σ) (tIn : Tape) :
    ∀ t, (parThreads0 mdl rng s0 tIn t).inited = true →
      ThreadInv n (parThreads0 mdl rng s0 tIn t) := by
  intro t ht
  have h0 : t = 0 := (parThreads0_inited mdl rng s0 tIn t).mp ht
  subst h0
  unfold parThreads0
  rw [if_pos rfl]
  exact ⟨setupTape_markPos tIn, by rw [setupTape_len tIn], setupTape_leaf tIn⟩

lemma mcParallelSimulAAD_eq (prd : ProductAAD n) (mdl : ModelAAD n) (rng : RNG σ)
    (s0 : σ) (nPath : ℕ) (antithetic : Bool) (nThread : ℕ) (assign : ℕ → ℕ)
    (tIn : Tape) :
    mcParallelSimulAAD prd mdl rng s0 nPath antithetic nThread assign tIn =
      ⟨applyWrites
         (((parAADRun prd mdl rng s0 nPath antithetic assign tIn).2.1).map
           (fun w => (w.1, w.2.val))) (List.replicate nPath 0),
       ⟨((parAADRun prd mdl rng s0 nPath antithetic assign tIn).1
           0).tape.propagateMarkToStart.nodes,
        accumAdjoints (parAADRun prd mdl rng s0 nPath antithetic assign tIn).1 nThread
          n
          ((parAADRun prd mdl rng s0 nPath antithetic assign tIn).1
            0).tape.propagateMarkToStart.adj,
        ((parAADRun prd mdl rng s0 nPath antithetic assign tIn).1
          0).tape.propagateMarkToStart.markPos⟩,
       s0,
       [Ev.rewind, Ev.putOnTape, Ev.initModel, Ev.markTape] ++
         (parAADRun prd mdl rng s0 nPath antithetic assign tIn).2.2 ++
         [Ev.propMarkToStart 0] ++
         finalizeTapes (parAADRun prd mdl rng s0 nPath antithetic assign tIn).1
           nThread ++
         [Ev.setTape 0]⟩ := rfl

lemma finalizeTapes_no_pmts0 (ths : ℕ → ThreadSt σ) :
    ∀ nThread : ℕ, Ev.propMarkToStart 0 ∉ finalizeTapes ths nThread := by
  intro nThread
  induction nThread with
  | zero => simp [finalizeTapes]
  | succ m ih =>
      unfold finalizeTapes
      rw [List.range_succ, List.map_append, List.flatten_append]
      intro hmem
      rcases List.mem_append.mp hmem with h | h
      · exact ih h
      · simp only [List.map_cons, List.map_nil, List.flatten_cons, List.flatten_nil,
          List.append_nil] at h
        by_cases him : (ths (m + 1)).inited = true
        · rw [if_pos him] at h
          simp at h
        · rw [if_neg him] at h
          simp at h

/-- Claim C5: after the batch phase of `mcParallelSimulAAD`,
`propagateMarkToStart` runs exactly once on the main thread's tape, and
exactly once on each worker thread's tape if and only if that worker was
initialized (the current tape being switched to it, the finalization
block being `setTape` directly followed by the propagation); the current
tape is restored to the main thread's at the very end; a thread is
initialized exactly when the schedule gave it at least one batch (the
main thread always is); each initialized worker's parameter adjoints are
added element-wise into the main-thread model clone's parameter
adjoints, uninitialized workers contributing nothing; and the returned
model is the main-thread clone (same tape nodes and mark), the original
RNG being untouched. -/
theorem c5_parallel_aad_finalization (prd : ProductAAD n) (mdl : ModelAAD n)
    (rng : RNG σ) (s0 : σ) (nPath : ℕ) (antithetic : Bool) (nThread : ℕ)
    (assign : ℕ → ℕ) (tIn : Tape) :
    (mcParallelSimulAAD prd mdl rng s0 nPath antithetic nThread assign
        tIn).trace.count (Ev.propMarkToStart 0) = 1 ∧
    (∀ i : ℕ,
      (mcParallelSimulAAD prd mdl rng s0 nPath antithetic nThread assign
          tIn).trace.count (Ev.propMarkToStart (i + 1)) =
        if i < nThread ∧
            ((parAADRun prd mdl rng s0 nPath antithetic assign tIn).1
              (i + 1)).inited = true
          then 1 else 0) ∧
    (mcParallelSimulAAD prd mdl rng s0 nPath antithetic nThread assign
        tIn).trace.getLast? = some (Ev.setTape 0) ∧
    (∀ t : ℕ,
      ((parAADRun prd mdl rng s0 nPath antithetic assign tIn).1 t).inited = true ↔
        (t = 0 ∨ ∃ bi, bi < (batchLoop 0 nPath).length ∧ assign bi = t)) ∧
    (∀ j : Fin n,
      (mcParallelSimulAAD prd mdl rng s0 nPath antithetic nThread assign
          tIn).mainTape.adj (j : ℕ) =
        ((parAADRun prd mdl rng s0 nPath antithetic assign tIn).1 0).tape.adj
            (j : ℕ) +
          ((List.range nThread).map (fun i =>
            if ((parAADRun prd mdl rng s0 nPath antithetic assign tIn).1
                (i + 1)).inited = true
              then ((parAADRun prd mdl rng s0 nPath antithetic assign tIn).1
                (i + 1)).tape.adj (j : ℕ)
              else 0)).sum) ∧
    (mcParallelSimulAAD prd mdl rng s0 nPath antithetic nThread assign
        tIn).mainTape.nodes =
      ((parAADRun prd mdl rng s0 nPath antithetic assign tIn).1 0).tape.nodes ∧
    (mcParallelSimulAAD prd mdl rng s0 nPath antithetic nThread assign
        tIn).mainTape.markPos =
      ((parAADRun prd mdl rng s0 nPath antithetic assign tIn).1 0).tape.markPos ∧
    (mcParallelSimulAAD prd mdl rng s0 nPath antithetic nThread assign tIn).origR =
      s0 := by
  have hinvB := batchFoldAAD_inv prd mdl rng s0 antithetic assign (batchLoop 0 nPath)
    0 (parThreads0 mdl rng s0 tIn) (parThreads0_inv mdl rng s0 tIn)
  refine ⟨?_, ?_, ?_, ?_, ?_, rfl, rfl, rfl⟩
  · rw [mcParallelSimulAAD_eq]
    show ([Ev.rewind, Ev.putOnTape, Ev.initModel, Ev.markTape] ++
        (parAADRun prd mdl rng s0 nPath antithetic assign tIn).2.2 ++
        [Ev.propMarkToStart 0] ++
        finalizeTapes (parAADRun prd mdl rng s0 nPath antithetic assign tIn).1
          nThread ++
        [Ev.setTape 0]).count (Ev.propMarkToStart 0) = 1
    rw [List.count_append, List.count_append, List.count_append, List.count_append]
    have h2 : ((parAADRun prd mdl rng s0 nPath antithetic assign tIn).2.2).count
        (Ev.propMarkToStart 0) = 0 := by
      refine List.count_eq_zero.mpr ?_
      rw [parAADRun_eq]
      exact batchFoldAAD_no_pmts prd mdl rng s0 antithetic assign _ 0 _ 0
    have h4 : (finalizeTapes
        (parAADRun prd mdl rng s0 nPath antithetic assign tIn).1 nThread).count
        (Ev.propMarkToStart 0) = 0 :=
      List.count_eq_zero.mpr (finalizeTapes_no_pmts0 _ nThread)
    rw [h2, h4]
    rfl
  · intro i
    rw [mcParallelSimulAAD_eq]
    show ([Ev.rewind, Ev.putOnTape, Ev.initModel, Ev.markTape] ++
        (parAADRun prd mdl rng s0 nPath antithetic assign tIn).2.2 ++
        [Ev.propMarkToStart 0] ++
        finalizeTapes (parAADRun prd mdl rng s0 nPath antithetic assign tIn).1
          nThread ++
        [Ev.setTape 0]).count (Ev.propMarkToStart (i + 1)) = _
    rw [List.count_append, List.count_append, List.count_append, List.count_append]
    have h2 : ((parAADRun prd mdl rng s0 nPath antithetic assign tIn).2.2).count
        (Ev.propMarkToStart (i + 1)) = 0 := by
      refine List.count_eq_zero.mpr ?_
      rw [parAADRun_eq]
      exact batchFoldAAD_no_pmts prd mdl rng s0 antithetic assign _ 0 _ (i + 1)
    have h4 := finalizeTapes_count
      (parAADRun prd mdl rng s0 nPath antithetic assign tIn).1 i nThread
    rw [h2, h4]
    have h1 : ([Ev.rewind, Ev.putOnTape, Ev.initModel, Ev.markTape]).count
        (Ev.propMarkToStart (i + 1)) = 0 := rfl
    have h3 : ([Ev.propMarkToStart 0]).count (Ev.propMarkToStart (i + 1)) = 0 := by
      simp [List.count_cons]
    have h5 : ([Ev.setTape 0]).count (Ev.propMarkToStart (i + 1)) = 0 := rfl
    rw [h1, h3, h5]
    simp
  · rw [mcParallelSimulAAD_eq]
    exact List.getLast?_concat _
  · intro t
    rw [parAADRun_eq, batchFoldAAD_inited]
    constructor
    · rintro (h | ⟨k, hk, hke⟩)
      · exact Or.inl ((parThreads0_inited mdl rng s0 tIn t).mp h)
      · refine Or.inr ⟨k, hk, ?_⟩
        rw [Nat.zero_add] at hke
        exact hke
    · rintro (rfl | ⟨bi, hbi, hbe⟩)
      · exact Or.inl ((parThreads0_inited mdl rng s0 tIn 0).mpr rfl)
      · refine Or.inr ⟨bi, hbi, ?_⟩
        rw [Nat.zero_add]
        exact hbe
  · intro j
    have h0inited : ((parAADRun prd mdl rng s0 nPath antithetic assign tIn).1
        0).inited = true := by
      rw [parAADRun_eq, batchFoldAAD_inited]
      exact Or.inl ((parThreads0_inited mdl rng s0 tIn 0).mpr rfl)
    have hmain : ThreadInv n
        ((parAADRun prd mdl rng s0 nPath antithetic assign tIn).1 0) := by
      rw [parAADRun_eq]
      exact hinvB 0 (by rw [← parAADRun_eq]; exact h0inited)
    rw [mcParallelSimulAAD_eq]
    show accumAdjoints (parAADRun prd mdl rng s0 nPath antithetic assign tIn).1
      nThread n
      ((parAADRun prd mdl rng s0 nPath antithetic assign tIn).1
        0).tape.propagateMarkToStart.adj (j : ℕ) = _
    rw [accumAdjoints_spec _ n nThread _ (j : ℕ) j.isLt]
    rw [propMTS_noop _ hmain.1 hmain.2.2]
    have hmapeq : (List.range nThread).map (fun i =>
        if ((parAADRun prd mdl rng s0 nPath antithetic assign tIn).1
            (i + 1)).inited = true
          then (((parAADRun prd mdl rng s0 nPath antithetic assign tIn).1
            (i + 1)).tape.propagateMarkToStart).adj (j : ℕ)
          else 0) =
        (List.range nThread).map (fun i =>
          if ((parAADRun prd mdl rng s0 nPath antithetic assign tIn).1
              (i + 1)).inited = true
            then ((parAADRun prd mdl rng s0 nPath antithetic assign tIn).1
              (i + 1)).tape.adj (j : ℕ)
            else 0) := by
      refine List.map_congr_left ?_
      intro i _
      by_cases hin : ((parAADRun prd mdl rng s0 nPath antithetic assign tIn).1
          (i + 1)).inited = true
      · rw [if_pos hin, if_pos hin]
        have hw : ThreadInv n
            ((parAADRun prd mdl rng s0 nPath antithetic assign tIn).1 (i + 1)) := by
          rw [parAADRun_eq]
          exact hinvB (i + 1) (by rw [← parAADRun_eq]; exact hin)
        rw [propMTS_noop _ hw.1 hw.2.2]
      · rw [if_neg hin, if_neg hin]
    rw [hmapeq]

lemma mcSimulAADLoop_no_setup (prd : ProductAAD n) (mdl : ModelAAD n)
    (tl : List Time) (rng : RNG σ) (antithetic : Bool) (c idx0 : ℕ)
    (st : AADLoopSt σ) :
    Ev.rewind ∉ (mcSimulAADLoop prd mdl tl rng antithetic idx0 c st).2.2 ∧
    Ev.putOnTape ∉ (mcSimulAADLoop prd mdl tl rng antithetic idx0 c st).2.2 ∧
    Ev.initModel ∉ (mcSimulAADLoop prd mdl tl rng antithetic idx0 c st).2.2 ∧
    Ev.markTape ∉ (mcSimulAADLoop prd mdl tl rng antithetic idx0 c st).2.2 := by
  refine ⟨?_, ?_, ?_, ?_⟩ <;>
    (intro hmem
     rcases mcSimulAADLoop_events prd mdl tl rng antithetic c idx0 st _ hmem with
       h | h | h | h | ⟨i, h⟩ | h <;> simp at h)

/-- Claim C3: every iteration of the AAD per-path loop — in the
sequential simulator and in each parallel batch alike — performs, in this
order: rewind the current tape to the mark, obtain the Gaussian vector
per the antithetic rule (a fresh draw or a negation), generate the path,
evaluate the payoff into the result at the path's absolute index, and
propagate that result back to the mark with `reset = false`; the
sequential loop's trace is one such block per path at absolute index
`idx0 + k`, a batch's is one per path at `firstPath + k` (after the tape
switch and the once-per-thread initialization), and with `reset = false`
the parameter adjoints (at or before the mark) accumulate across the
paths: the loop adds each path's derivative contribution to every
parameter slot. -/
theorem c3_per_path_operations (prd : ProductAAD n) (mdl : ModelAAD n)
    (tl : List Time) (rng : RNG σ) (antithetic : Bool) (idx0 c : ℕ)
    (st : AADLoopSt σ) (s0 : σ) (t : ℕ) (b : ℕ × ℕ) (ts : ThreadSt σ)
    (hmk : st.tape.markPos = n) (hnl : n ≤ st.tape.nodes.length)
    (hlf : ∀ i, i < n → st.tape.nodes.getD i ⟨[]⟩ = ⟨[]⟩)
    (hts : ts.inited = true → ThreadInv n ts) :
    (∀ (before : Bool) (i : ℕ),
      aadBlock antithetic before i =
        [Ev.rewindToMark] ++
        (if antithetic && before then [Ev.negateG] else [Ev.nextGEv]) ++
        [Ev.genPath, Ev.payoffEval i, Ev.propToMark false]) ∧
    (mcSimulAADLoop prd mdl tl rng antithetic idx0 c st).2.2 =
      ((List.range c).map (fun k =>
        aadBlock antithetic (expBefore antithetic st.antiPath k) (idx0 + k))).flatten ∧
    ((∀ k, k < c →
        (prd.payoff (mdl.generatePath tl
          (expGauss rng antithetic st.rngS st.gaussVec st.antiPath k))).isParam =
            false) →
      ∀ j : Fin n,
        (mcSimulAADLoop prd mdl tl rng antithetic idx0 c st).1.tape.adj (j : ℕ) =
          st.tape.adj (j : ℕ) +
            ((List.range c).map (fun k =>
              Expr.pderiv j mdl.paramVals
                (prd.payoff (mdl.generatePath tl
                  (expGauss rng antithetic st.rngS st.gaussVec st.antiPath k))))).sum) ∧
    (runBatchAAD prd mdl rng s0 antithetic t b ts).2.2 =
      (if 0 < t then [Ev.setTape t] else []) ++
      (if ts.inited then []
        else [Ev.rewind, Ev.putOnTape, Ev.initModel, Ev.markTape]) ++
      ((List.range b.2).map (fun k =>
        aadBlock antithetic (expBefore antithetic false k) (b.1 + k))).flatten := by
  obtain ⟨_, hT, _, _, _, _, _, hD⟩ :=
    mcSimulAADLoop_spec prd mdl tl rng antithetic c idx0 st hmk hnl hlf
  refine ⟨fun _ _ => rfl, hT, hD, ?_⟩
  rw [runBatchAAD_trace]
  refine congrArg (fun L =>
    ((if 0 < t then [Ev.setTape t] else []) ++
      (if ts.inited then []
        else [Ev.rewind, Ev.putOnTape, Ev.initModel, Ev.markTape])) ++ L) ?_
  cases hin : ts.inited with
  | true =>
      obtain ⟨h1, h2, h3⟩ := hts hin
      exact (mcSimulAADLoop_spec prd mdl prd.timeline rng antithetic b.2 b.1
        (⟨s0, ts.tape,
          rng.skipTo (if antithetic then b.1 / 2 else b.1) ts.rngS, ts.gv,
          false⟩ : AADLoopSt σ) h1 h2 h3).2.1
  | false =>
      exact (mcSimulAADLoop_spec prd mdl prd.timeline rng antithetic b.2 b.1
        (⟨s0, ((ts.tape.rewind.putOnTape n).mark),
          rng.skipTo (if antithetic then b.1 / 2 else b.1)
            (rng.init mdl.simDim s0),
          List.replicate mdl.simDim 0, false⟩ : AADLoopSt σ)
        (setupTape_markPos ts.tape)
        (by rw [setupTape_len ts.tape])
        (setupTape_leaf ts.tape)).2.1

/-- Claim C4: the AAD setup protocol — `initSimul`, and `mcSimulAAD`
before any path — performs exactly once and in this order: the current
tape's `rewind`, the model clone's `putOnTape`, the model clone's `init`
with the product timeline (so `init` runs after `putOnTape`), and
`tape.mark`; the four events head `mcSimulAAD`'s trace, each occurs
exactly once in the whole run, and each parallel batch replays `initSimul`
exactly once on a thread not yet initialized and never on an initialized
one. -/
theorem c4_aad_setup_order (prd : ProductAAD n) (mdl : ModelAAD n) (rng : RNG σ)
    (s0 : σ) (nPath : ℕ) (antithetic : Bool) (tIn : Tape) (t : ℕ) (b : ℕ × ℕ)
    (ts : ThreadSt σ) :
    (initSimul prd mdl rng s0 tIn).2.2 =
      [Ev.rewind, Ev.putOnTape, Ev.initModel, Ev.markTape] ∧
    (mcSimulAAD prd mdl rng s0 nPath antithetic tIn).trace.take 4 =
      [Ev.rewind, Ev.putOnTape, Ev.initModel, Ev.markTape] ∧
    (mcSimulAAD prd mdl rng s0 nPath antithetic tIn).trace.count Ev.rewind = 1 ∧
    (mcSimulAAD prd mdl rng s0 nPath antithetic tIn).trace.count Ev.putOnTape = 1 ∧
    (mcSimulAAD prd mdl rng s0 nPath antithetic tIn).trace.count Ev.initModel = 1 ∧
    (mcSimulAAD prd mdl rng s0 nPath antithetic tIn).trace.count Ev.markTape = 1 ∧
    (runBatchAAD prd mdl rng s0 antithetic t b ts).2.2.count Ev.initModel =
      (if ts.inited then 0 else 1) := by
  obtain ⟨hr, hp, hi, hm⟩ := mcSimulAADLoop_no_setup prd mdl prd.timeline rng
    antithetic nPath 0
    (⟨s0, ((tIn.rewind.putOnTape n).mark), rng.init mdl.simDim s0,
      List.replicate mdl.simDim 0, false⟩ : AADLoopSt σ)
  have htr : (mcSimulAAD prd mdl rng s0 nPath antithetic tIn).trace =
      [Ev.rewind, Ev.putOnTape, Ev.initModel, Ev.markTape] ++
        (mcSimulAADLoop prd mdl prd.timeline rng antithetic 0 nPath
          ⟨s0, ((tIn.rewind.putOnTape n).mark), rng.init mdl.simDim s0,
            List.replicate mdl.simDim 0, false⟩).2.2 ++
        [Ev.propMarkToStart 0] := rfl
  refine ⟨rfl, ?_, ?_, ?_, ?_, ?_, ?_⟩
  · rw [htr]
    rw [List.take_append_of_le_length (by simp)]
    rw [List.take_append_of_le_length (by simp)]
    rfl
  · rw [htr, List.count_append, List.count_append,
      List.count_eq_zero.mpr hr]
    rfl
  · rw [htr, List.count_append, List.count_append,
      List.count_eq_zero.mpr hp]
    rfl
  · rw [htr, List.count_append, List.count_append,
      List.count_eq_zero.mpr hi]
    rfl
  · rw [htr, List.count_append, List.count_append,
      List.count_eq_zero.mpr hm]
    rfl
  · rw [runBatchAAD_trace, List.count_append, List.count_append]
    obtain ⟨_, _, hiB, _⟩ := mcSimulAADLoop_no_setup prd mdl prd.timeline rng
      antithetic b.2 b.1
      (⟨s0, (if ts.inited then ts.tape else ((ts.tape.rewind.putOnTape n).mark)),
        rng.skipTo (if antithetic then b.1 / 2 else b.1)
          (if ts.inited then ts.rngS else rng.init mdl.simDim s0),
        (if ts.inited then ts.gv else List.replicate mdl.simDim 0),
        false⟩ : AADLoopSt σ)
    rw [List.count_eq_zero.mpr hiB]
    cases hin : ts.inited with
    | true =>
        by_cases h0 : 0 < t
        · rw [if_pos h0]
          rfl
        · rw [if_neg h0]
          rfl
    | false =>
        by_cases h0 : 0 < t
        · rw [if_pos h0]
          rfl
        · rw [if_neg h0]
          rfl

/-- One-parameter AAD model used by the concrete witnesses: parameter
value 2, one Gaussian per path, single spot = parameter times the first
Gaussian. -/
def cstModelAAD : ModelAAD 1 :=
  ⟨fun _ => 2, 1, fun _ g => [Expr.mul (Expr.param 0) (Expr.const (g.headD 0))]⟩

/-- AAD product used by the concrete witnesses: pays the spot at the
single event date. -/
def cstProductAAD : ProductAAD 1 :=
  ⟨[1], fun ps => ps.headD (Expr.const 0)⟩

/-- AAD model whose per-path spot is the bare parameter: the payoff
copies an ActiveNumber, reusing the parameter's own pre-mark node
instead of recording a fresh one. -/
def bareModelAAD : ModelAAD 1 :=
  ⟨fun _ => 2, 1, fun _ _ => [Expr.param 0]⟩

/-- A fresh (default-constructed) tape. -/
def emptyTape : Tape := ⟨[], fun _ => 0, 0⟩

/-- A set-up one-parameter tape: one leaf node, mark right after it. -/
def cstTape : Tape := ⟨[⟨[]⟩], fun _ => 0, 1⟩

/-- Concrete AAD loop state over the counter RNG. -/
def cstAADSt : AADLoopSt ℕ := ⟨0, cstTape, 7, [0], false⟩

/-- Concrete initialized thread state. -/
def cstThreadSt : ThreadSt ℕ := ⟨true, cstTape, 3, []⟩

/-- Claim C1 (amended): `mcSimulAAD` returns the length-`nPath` vector of
the pathwise payoffs together with the model clone, and — provided no
per-path recorded payoff is a bare reused parameter node — every
parameter's adjoint slot holds the derivative of the sum of the `nPath`
path payoffs with respect to that parameter (the sum over paths of the
pathwise partials).  The proviso is necessary: `propagateToMark` seeds by
*setting* the result's adjoint to 1, and when the result is the
parameter's own pre-mark node this overwrites the accumulated adjoint
(see the counterexample). -/
theorem c1_aad_adjoints (prd : ProductAAD n) (mdl : ModelAAD n) (rng : RNG σ)
    (s0 : σ) (nPath : ℕ) (antithetic : Bool) (tIn : Tape)
    (hnp : ∀ k, k < nPath →
      (prd.payoff (mdl.generatePath prd.timeline
        (expGauss rng antithetic (rng.init mdl.simDim s0)
          (List.replicate mdl.simDim 0) false k))).isParam = false) :
    (mcSimulAAD prd mdl rng s0 nPath antithetic tIn).payoffs.length = nPath ∧
    (mcSimulAAD prd mdl rng s0 nPath antithetic tIn).payoffs =
      (List.range nPath).map (fun k =>
        (prd.payoff (mdl.generatePath prd.timeline
          (expGauss rng antithetic (rng.init mdl.simDim s0)
            (List.replicate mdl.simDim 0) false k))).eval mdl.paramVals) ∧
    (mcSimulAAD prd mdl rng s0 nPath antithetic tIn).model = mdl ∧
    ∀ j : Fin n,
      (mcSimulAAD prd mdl rng s0 nPath antithetic tIn).tape.adj (j : ℕ) =
        ((List.range nPath).map (fun k =>
          Expr.pderiv j mdl.paramVals
            (prd.payoff (mdl.generatePath prd.timeline
              (expGauss rng antithetic (rng.init mdl.simDim s0)
                (List.replicate mdl.simDim 0) false k))))).sum := by
  obtain ⟨hV, hM, _, _, hD⟩ := mcSimulAAD_spec prd mdl rng s0 nPath antithetic tIn
  exact ⟨by rw [hV, List.length_map, List.length_range], hV, hM, hD hnp⟩

/-- C1's counterexample: when the per-path payoff reuses the parameter's
own node (the path value is the parameter itself), two paths leave the
parameter's adjoint slot at 1 — each `propagateToMark` *sets* the seed,
overwriting the previous path's accumulation — while the derivative of
the sum of the two path payoffs with respect to the parameter is 2, so
the claimed equality fails. -/
theorem c1_counterexample :
    (mcSimulAAD cstProductAAD bareModelAAD natRNG 0 2 false emptyTape).tape.adj 0 =
      1 ∧
    ((List.range 2).map (fun k =>
      Expr.pderiv 0 bareModelAAD.paramVals
        (cstProductAAD.payoff (bareModelAAD.generatePath cstProductAAD.timeline
          (expGauss natRNG false (natRNG.init 1 0)
            (List.replicate 1 0) false k))))).sum = 2 ∧
    (1 : ℚ) ≠ 2 :=
  ⟨by with_unfolding_all decide, by with_unfolding_all decide, by decide⟩

/-- Witness for C1 (amended) with the product spot = parameter · Gaussian,
parameter 2, counter RNG from 5: payoffs `[2·5, 2·6]` and adjoint
`5 + 6 = 11`, the derivative of the sum. -/
theorem c1_aad_adjoints_witness :
    (∀ k, k < 2 →
      (cstProductAAD.payoff (cstModelAAD.generatePath cstProductAAD.timeline
        (expGauss natRNG false (natRNG.init 1 5)
          (List.replicate 1 0) false k))).isParam = false) ∧
    (mcSimulAAD cstProductAAD cstModelAAD natRNG 5 2 false emptyTape).payoffs =
      [10, 12] ∧
    (mcSimulAAD cstProductAAD cstModelAAD natRNG 5 2 false emptyTape).tape.adj 0 =
      11 := by
  refine ⟨by decide, ?_, ?_⟩
  · rw [(c1_aad_adjoints cstProductAAD cstModelAAD natRNG 5 2 false emptyTape
      (by decide)).2.1]
    with_unfolding_all decide
  · have h := (c1_aad_adjoints cstProductAAD cstModelAAD natRNG 5 2 false emptyTape
      (by decide)).2.2.2 ⟨0, by decide⟩
    exact h.trans (by with_unfolding_all decide)

/-- Witness for C3 at two paths of the concrete one-parameter model over
the counter RNG: the trace of the sequential loop is the two per-path
blocks. -/
theorem c3_per_path_operations_witness :
    (cstAADSt.tape.markPos = 1 ∧ 1 ≤ cstAADSt.tape.nodes.length ∧
      (∀ i, i < 1 → cstAADSt.tape.nodes.getD i ⟨[]⟩ = ⟨[]⟩) ∧
      (cstThreadSt.inited = true → ThreadInv 1 cstThreadSt)) ∧
    (mcSimulAADLoop cstProductAAD cstModelAAD [1] natRNG false 0 2 cstAADSt).2.2 =
      ((List.range 2).map (fun k =>
        aadBlock false (expBefore false false k) (0 + k))).flatten := by
  refine ⟨⟨by decide, by decide, by decide, fun _ => ⟨by decide, by decide, by decide⟩⟩,
    ?_⟩
  exact (c3_per_path_operations cstProductAAD cstModelAAD [1] natRNG false 0 2
    cstAADSt 0 1 (64, 2) cstThreadSt (by decide) (by decide) (by decide)
    (fun _ => ⟨by decide, by decide, by decide⟩)).2.1

/-- Claim C9: every simulator entry point hands back its original model
state and RNG state exactly as passed in — the threaded originals are
preserved, every mutating operation acting on the clones only. -/
theorem c9_originals_unchanged (prd : Product) (mdl : Model M) (m0 : M)
    (rng : RNG σ) (s0 : σ) (prdA : ProductAAD n) (mdlA : ModelAAD n) (sA : σ)
    (nPath : ℕ) (antithetic : Bool) (tIn : Tape) (nThread : ℕ)
    (assign : ℕ → ℕ) :
    (mcSimul prd mdl m0 rng s0 nPath antithetic).final.origM = m0 ∧
    (mcSimul prd mdl m0 rng s0 nPath antithetic).final.origR = s0 ∧
    (mcParallelSimul prd mdl m0 rng s0 nPath antithetic).origM = m0 ∧
    (mcParallelSimul prd mdl m0 rng s0 nPath antithetic).origR = s0 ∧
    (mcSimulAAD prdA mdlA rng sA nPath antithetic tIn).origR = sA ∧
    (mcParallelSimulAAD prdA mdlA rng sA nPath antithetic nThread assign
      tIn).origR = sA := by
  refine ⟨?_, ?_, ?_, ?_, ?_, rfl⟩
  · exact (mcSimulLoop_spec prd mdl (mdl.init prd.timeline m0) rng antithetic nPath
      (⟨m0, s0, rng.init (mdl.simDim (mdl.init prd.timeline m0)) s0,
        List.replicate (mdl.simDim (mdl.init prd.timeline m0)) 0,
        false⟩ : SimSt M σ)).2.1
  · exact (mcSimulLoop_spec prd mdl (mdl.init prd.timeline m0) rng antithetic nPath
      (⟨m0, s0, rng.init (mdl.simDim (mdl.init prd.timeline m0)) s0,
        List.replicate (mdl.simDim (mdl.init prd.timeline m0)) 0,
        false⟩ : SimSt M σ)).2.2.1
  · exact (mcParallelSimul_eq prd mdl m0 rng s0 nPath antithetic).2.1
  · exact (mcParallelSimul_eq prd mdl m0 rng s0 nPath antithetic).2.2
  · exact (mcSimulAAD_spec prdA mdlA rng sA nPath antithetic tIn).2.2.1

/-- Embedding of the `u`-doubling loop of `blackScholesIvol`
(`analytics.h`, line 58), fuelled: `while (blackScholes(spot, strike, u,
mat) < prem) u *= 2;` over an abstract pricing function `bs` (volatility
to price at the fixed spot, strike, maturity). -/
def ivolULoop (bs : ℚ → ℚ) (prem : ℚ) : ℕ → ℚ → Option ℚ
  | 0, u => if bs u < prem then none else some u
  | fuel + 1, u => if bs u < prem then ivolULoop bs prem fuel (u * 2) else some u

/-- Embedding of the `l`-halving loop of `blackScholesIvol`
(`analytics.h`, line 60): `while (blackScholes(spot, strike, l, mat) >
prem) l /= 2;`. -/
def ivolLLoop (bs : ℚ → ℚ) (prem : ℚ) : ℕ → ℚ → Option ℚ
  | 0, l => if bs l > prem then none else some l
  | fuel + 1, l => if bs l > prem then ivolLLoop bs prem fuel (l / 2) else some l

/-- Embedding of the bisection loop of `blackScholesIvol` (`analytics.h`,
lines 64-78), fuelled, carrying `(u, l, pu, pl)`; `pl : Option ℚ` is
`none` while the local `pl` is still uninitialized — only the `else`
branch (line 76) assigns it. -/
def ivolBisect (bs : ℚ → ℚ) (prem : ℚ) :
    ℕ → ℚ → ℚ → ℚ → Option ℚ → Option (ℚ × ℚ × ℚ × Option ℚ)
  | 0, u, l, pu, pl =>
      if u - l > 1 / 10 ^ 12 then none else some (u, l, pu, pl)
  | fuel + 1, u, l, pu, pl =>
      if u - l > 1 / 10 ^ 12 then
        if bs ((u + l) / 2) > prem then
          ivolBisect bs prem fuel ((u + l) / 2) l (bs ((u + l) / 2)) pl
        else
          ivolBisect bs prem fuel u ((u + l) / 2) pu (some (bs ((u + l) / 2)))
      else some (u, l, pu, pl)

/-- Embedding of `blackScholesIvol` (`analytics.h`, lines 48-81) over an
abstract pricing function `bs`; `eps` stands for the constant `EPS`
(defined outside `src/`).  The outer `Option` is the loops' fuel; the
inner `Option ℚ` is `none` exactly when the final return (line 80) reads
`pl` without it ever having been assigned: line 61 assigns `pu`, but
line 62 computes `blackScholes(spot, strike, l, mat)` and discards the
value instead of assigning it to `pl`, so `pl` enters the bisection
uninitialized and is only ever assigned in the bisection's `else`
branch. -/
def blackScholesIvol (bs : ℚ → ℚ) (spot strike prem eps : ℚ) (fuel : ℕ) :
    Option (Option ℚ) :=
  if prem ≤ max 0 (spot - strike) + eps then some (some 0)
  else
    match ivolULoop bs prem fuel (1 / 2) with
    | none => none
    | some u =>
      match ivolLLoop bs prem fuel (1 / 20) with
      | none => none
      | some l =>
        match ivolBisect bs prem fuel u l (bs u) none with
        | none => none
        | some (u2, l2, pu2, pl2) =>
          match pl2 with
          | none => some none
          | some plv =>
              some (some (l2 + (prem - plv) / (pu2 - plv) * (u2 - l2)))

/-- Claim C10 fails on the code: with the pricing function `bs = id`,
spot 0, strike 1, premium `1/20` (above the intrinsic-value guard) and
`eps = 10^-12`, both bracketing loops exit immediately (`bs(1/2) ≥ prem`,
`bs(1/20) ≤ prem`), every bisection midpoint prices above the premium so
only the `u` branch ever runs, and the final return reads `pl`, which
was never assigned — line 62 discarded the only value computed for it.
The `some none` result is exactly that uninitialized read. -/
theorem c10_pl_uninitialized_read :
    blackScholesIvol id 0 1 (1 / 20) (1 / 10 ^ 12) 60 = some none := by
  with_unfolding_all decide

/-- Claim C8: in both parallel simulators the spawned batches partition
`[0, nPath)`: each batch holds `min(pathsLeft, BATCHSIZE)` consecutive
indices from its `firstPath` and is nonempty; the concatenated index
ranges are exactly `[0, nPath)` (so each result index is written by
exactly one task), in the plain simulator and in the AAD one alike; each
batch's cloned RNG is positioned with `skipTo(firstPath)`
(`skipTo(firstPath / 2)` under antithetic); and applying the writes in
any order yields the vector the simulator returns, so the output does
not depend on task interleaving — again for the AAD simulator under any
schedule as well. -/
theorem c8_batches_partition (prd : Product) (mdl : Model M) (m0 : M) (rng : RNG σ)
    (s0 : σ) (prdA : ProductAAD n) (mdlA : ModelAAD n) (sA : σ) (tInA : Tape)
    (nThreadA : ℕ) (assign : ℕ → ℕ) (nPath : ℕ) (antithetic : Bool)
    (hn : 1 ≤ nPath) :
    (∀ b ∈ batchLoop 0 nPath, b.2 = min (nPath - b.1) BATCHSIZE ∧ 1 ≤ b.2) ∧
    ((batchLoop 0 nPath).map (fun b => List.range' b.1 b.2)).flatten =
      List.range nPath ∧
    (parallelWrites prd mdl m0 rng s0 nPath antithetic).map Prod.fst =
      List.range nPath ∧
    (∀ b ∈ batchLoop 0 nPath,
      taskWrites prd mdl (mdl.init prd.timeline m0) rng antithetic
          (mcSimulRngStart prd mdl m0 rng s0) b.1 b.2 =
        (List.range' b.1 b.2).zip ((List.range b.2).map
          (seqPayoff prd mdl (mdl.init prd.timeline m0) rng antithetic
            (rng.skipTo (if antithetic then b.1 / 2 else b.1)
              (mcSimulRngStart prd mdl m0 rng s0))))) ∧
    (∀ ws' : List (ℕ × ℚ),
      ws'.Perm (parallelWrites prd mdl m0 rng s0 nPath antithetic) →
        applyWrites ws' (List.replicate nPath 0) =
          (mcParallelSimul prd mdl m0 rng s0 nPath antithetic).res) ∧
    (((parAADRun prdA mdlA rng sA nPath antithetic assign tInA).2.1).map Prod.fst =
      List.range nPath) ∧
    (∀ ws' : List (ℕ × ℚ),
      ws'.Perm (((parAADRun prdA mdlA rng sA nPath antithetic assign tInA).2.1).map
        (fun w => (w.1, w.2.val))) →
        applyWrites ws' (List.replicate nPath 0) =
          (mcParallelSimulAAD prdA mdlA rng sA nPath antithetic nThreadA assign
            tInA).res) := by
  refine ⟨?_, ?_, ?_, ?_, ?_, ?_, ?_⟩
  · intro b hb
    obtain ⟨hb1, hb2, hb3, hb4⟩ := batchLoop_mem nPath 0 b hb
    exact ⟨by rw [hb3]; refine congrArg₂ _ (by omega) rfl, hb4⟩
  · rw [batchLoop_ranges, List.range_eq_range']
  · exact parallelWrites_fst prd mdl m0 rng s0 nPath antithetic
  · intro b _
    unfold taskWrites
    rw [taskValues_eq]
  · intro ws' hperm
    rw [(mcParallelSimul_eq prd mdl m0 rng s0 nPath antithetic).1]
    have hnd : ((parallelWrites prd mdl m0 rng s0 nPath antithetic).map
        Prod.fst).Nodup := by
      rw [parallelWrites_fst]
      exact List.nodup_range nPath
    exact applyWrites_perm _ _ hperm.symm hnd _
  · rw [parAADRun_eq, batchFoldAAD_writes_fst, batchLoop_ranges,
      List.range_eq_range']
  · intro ws' hperm
    have hkeys : ((((parAADRun prdA mdlA rng sA nPath antithetic assign
        tInA).2.1).map (fun w => (w.1, w.2.val))).map Prod.fst) =
        List.range nPath := by
      rw [List.map_map]
      have hcomp : Prod.fst ∘ (fun w : ℕ × Number => (w.1, w.2.val)) =
          Prod.fst := rfl
      rw [hcomp, parAADRun_eq, batchFoldAAD_writes_fst, batchLoop_ranges,
        List.range_eq_range']
    have hnd : ((((parAADRun prdA mdlA rng sA nPath antithetic assign
        tInA).2.1).map (fun w => (w.1, w.2.val))).map Prod.fst).Nodup := by
      rw [hkeys]
      exact List.nodup_range nPath
    rw [mcParallelSimulAAD_eq]
    exact applyWrites_perm _ _ hperm.symm hnd _

/-- Witness for claim C8 at `nPath = 65`, `antithetic = true`: the two
batches are `(0, 64)` and `(64, 1)`, they cover `[0, 65)` exactly,
applying the writes in reversed order still yields the vector the plain
parallel simulator returns, and the AAD simulator's writes (under a
round-robin schedule over one worker) target exactly the indices
`[0, 65)`. -/
theorem c8_batches_partition_witness :
    1 ≤ 65 ∧
    batchLoop 0 65 = [(0, 64), (64, 1)] ∧
    ((batchLoop 0 65).map (fun b => List.range' b.1 b.2)).flatten = List.range 65 ∧
    applyWrites (parallelWrites cstProduct cstModel [] natRNG 0 65 true).reverse
        (List.replicate 65 0) =
      (mcParallelSimul cstProduct cstModel [] natRNG 0 65 true).res ∧
    ((parAADRun cstProductAAD cstModelAAD natRNG 0 65 true (fun bi => bi % 2)
        emptyTape).2.1).map Prod.fst = List.range 65 := by
  refine ⟨by decide, by decide, ?_, ?_, ?_⟩
  · exact (c8_batches_partition cstProduct cstModel [] natRNG 0 cstProductAAD
      cstModelAAD 0 emptyTape 1 (fun bi => bi % 2) 65 true (by decide)).2.1
  · exact (c8_batches_partition cstProduct cstModel [] natRNG 0 cstProductAAD
      cstModelAAD 0 emptyTape 1 (fun bi => bi % 2) 65 true
      (by decide)).2.2.2.2.1 _ (List.reverse_perm _)
  · exact (c8_batches_partition cstProduct cstModel [] natRNG 0 cstProductAAD
      cstModelAAD 0 emptyTape 1 (fun bi => bi % 2) 65 true
      (by decide)).2.2.2.2.2.1

end CF
